import Mathlib

/-!
# Verification of the plenoptic steerable pyramid (frequency implementation)

Shallow embedding of
`src/plenoptic/simulate/canonical_computations/steerable_pyramid_freq.py`
(class `Steerable_Pyramid_Freq`).

The scalar configuration logic of `__init__` (height validation, order
clamping, twidth normalization) is embedded as a pure function
`initConfig`.  The tensor-level pipeline (`forward`, `recon_pyr`,
`steer_coeffs`) is embedded structurally: the external torch/numpy tensor
primitives (`fft2`, `ifft2`, `fftshift`, elementwise multiplication,
cropping, ...) are opaque parameters, since their numerics live outside
this repository; every control-flow decision, dictionary construction and
validation step of the source is reproduced.  The channel-packing codec
(`convert_pyr_to_tensor` / `convert_tensor_to_pyr`) is embedded over a
tensor model that records dtype (real/complex), spatial shape, and the
channel list, which is exactly the structure those two functions inspect.
-/

namespace Plenoptic

/-- Keys of the coefficient dictionary: `(scale, orientation)` tuples plus
the two residual string keys. -/
inductive PyrKey where
  | band (scale : Nat) (orientation : Nat)
  | residual_highpass
  | residual_lowpass
deriving DecidableEq, Repr

/-- Entries of the `scales` argument of `forward` and of the `self.scales`
attribute: Python ints (modelled as `Int`, since negative ints can be
passed) or strings. -/
inductive ScaleSel where
  | int (i : Int)
  | str (s : String)
deriving DecidableEq, Repr

/-! ## `__init__`: scalar configuration (source lines 81-126) -/

/-- The `height` constructor argument: `'auto'` or an int. -/
inductive HeightArg where
  | auto
  | int (h : Int)

/-- Which of the three non-fatal warnings `__init__` emits. -/
structure InitWarnings where
  odd_shape : Bool
  order_trunc : Bool
  twidth_reset : Bool
deriving DecidableEq, Repr

/-- The scalar attributes `__init__` computes before building masks. -/
structure PyrInitConfig where
  num_scales : Int
  order : Int
  num_orientations : Int
  twidth : Int
  fft_norm : String
  is_complex : Bool
  downsample : Bool
  tight_frame : Bool
deriving DecidableEq, Repr

/-- `max_ht = np.floor(np.log2(min(H, W))) - 2` (source line 108).
`Nat.log2 n` equals the floor of the real base-2 logarithm for `n ≥ 1`
(proved in `max_ht_eq_floor_logb` below); `np.log2` on image-sized ints is
exact enough that its floor agrees with the ideal one. -/
def max_ht (image_shape : Nat × Nat) : Int :=
  (Nat.log2 (min image_shape.1 image_shape.2) : Int) - 2

/-- Scalar part of `Steerable_Pyramid_Freq.__init__` (source lines 81-126):
odd-shape warning, `fft_norm` selection, height validation against
`max_ht`, order clamping to `[1, 15]`, `num_orientations = order + 1`, and
twidth normalization.  `twidth` and `order` are `Int` per their documented
parameter types. -/
def initConfig (image_shape : Nat × Nat) (height : HeightArg) (order : Int)
    (twidth : Int) (is_complex downsample tight_frame : Bool) :
    Except String (PyrInitConfig × InitWarnings) := do
  let odd_shape : Bool := image_shape.1 % 2 != 0 || image_shape.2 % 2 != 0
  let fft_norm : String := if tight_frame then "ortho" else "backward"
  let maxht : Int := max_ht image_shape
  let num_scales : Int ←
    match height with
    | .auto => Except.ok maxht
    | .int h =>
        if h > maxht then
          Except.error ("Cannot build pyramid higher than " ++ toString maxht ++ " levels.")
        else
          Except.ok h
  let order_trunc : Bool := order > 15 || order ≤ 0
  let order : Int := if order > 15 || order ≤ 0 then min (max order 1) 15 else order
  let num_orientations : Int := order + 1
  let twidth_reset : Bool := twidth ≤ 0
  let twidth : Int := if twidth ≤ 0 then 1 else twidth
  Except.ok
    ({ num_scales := num_scales, order := order, num_orientations := num_orientations,
       twidth := twidth, fft_norm := fft_norm, is_complex := is_complex,
       downsample := downsample, tight_frame := tight_frame },
     { odd_shape := odd_shape, order_trunc := order_trunc, twidth_reset := twidth_reset })

/-- `Nat.log2` agrees with the floor of the real base-2 logarithm. -/
theorem max_ht_eq_floor_logb (H W : Nat) (hmin : 0 < min H W) :
    max_ht (H, W) = ⌊Real.logb 2 ((min H W : Nat) : ℝ)⌋ - 2 := by
  have h1 : (⌊Real.logb 2 ((min H W : Nat) : ℝ)⌋ : Int) = Int.log 2 ((min H W : Nat) : ℝ) := by
    have := Real.floor_logb_natCast (b := 2) (r := ((min H W : Nat) : ℝ)) (Nat.cast_nonneg _)
    simpa using this
  have h2 : Int.log 2 (((min H W : Nat) : ℝ)) = (Nat.log 2 (min H W) : Int) :=
    Int.log_natCast 2 (min H W)
  simp only [max_ht, Nat.log2_eq_log_two]
  rw [h1, h2]

/-- C3: for every image shape and every integer height strictly greater
than `floor(log2(min(H,W))) - 2`, construction raises a fatal
configuration error; with `height='auto'` construction succeeds and sets
`num_scales = floor(log2(min(H,W))) - 2`. -/
theorem C3_height_validation (H W : Nat) (hmin : 0 < min H W) (h : Int)
    (hgt : h > ⌊Real.logb 2 ((min H W : Nat) : ℝ)⌋ - 2)
    (order twidth : Int) (ic ds tf : Bool) :
    (∃ msg, initConfig (H, W) (.int h) order twidth ic ds tf = .error msg)
    ∧ (∃ cfg warns, initConfig (H, W) .auto order twidth ic ds tf = .ok (cfg, warns)
        ∧ cfg.num_scales = ⌊Real.logb 2 ((min H W : Nat) : ℝ)⌋ - 2) := by
  have hb := max_ht_eq_floor_logb H W hmin
  have hgt' : h > max_ht (H, W) := by omega
  refine ⟨⟨"Cannot build pyramid higher than " ++ toString (max_ht (H, W)) ++ " levels.", ?_⟩, ?_⟩
  · simp only [initConfig, bind, Except.bind, if_pos hgt']
  · refine ⟨_, _, rfl, ?_⟩
    simpa using hb

/-- Witness for `C3_height_validation` at shape `(256, 256)` and requested
height 7 (`max_ht = 6` there). -/
theorem C3_height_validation_witness :
    (∃ msg, initConfig (256, 256) (.int 7) 3 1 false true false = .error msg)
    ∧ (∃ cfg warns, initConfig (256, 256) .auto 3 1 false true false = .ok (cfg, warns)
        ∧ cfg.num_scales = ⌊Real.logb 2 ((min 256 256 : Nat) : ℝ)⌋ - 2) := by
  refine C3_height_validation 256 256 (by decide) 7 ?_ 3 1 false true false
  have h256 : Nat.log2 256 = 8 := by
    rw [Nat.log2_eq_log_two]
    exact Nat.log_eq_of_pow_le_of_lt_pow (by norm_num) (by norm_num)
  have hm : max_ht (256, 256) = 6 := by simp [max_ht, h256]
  have hb := max_ht_eq_floor_logb 256 256 (by decide)
  omega

/-- C6: for every (integer, per the documented parameter type) `twidth`
that is not `≥ 1`, `__init__` warns and proceeds with `twidth` reset to 1,
and the resulting configuration is exactly the one obtained by passing
`twidth = 1` (only the warning flag differs). -/
theorem C6_twidth_reset (shape : Nat × Nat) (height : HeightArg)
    (order t : Int) (ic ds tf : Bool) (ht : ¬(1 ≤ t)) :
    initConfig shape height order t ic ds tf
      = Except.map (fun p => (p.1, { p.2 with twidth_reset := true }))
          (initConfig shape height order 1 ic ds tf)
    ∧ ∀ cfg w, initConfig shape height order t ic ds tf = .ok (cfg, w) →
        cfg.twidth = 1 ∧ w.twidth_reset = true := by
  have ht0 : t ≤ 0 := by omega
  constructor
  · simp only [initConfig, bind, Except.bind]
    cases height with
    | auto =>
        simp [ht0, Except.map]
    | int hh =>
        by_cases hcase : hh > max_ht shape
        · simp [hcase, Except.map]
        · simp [hcase, ht0, Except.map]
  · intro cfg w hok
    simp only [initConfig, bind, Except.bind] at hok
    cases height with
    | auto =>
        simp only [if_pos ht0, Except.ok.injEq, Prod.mk.injEq] at hok
        obtain ⟨hcfg, hw⟩ := hok
        constructor
        · rw [← hcfg]
        · rw [← hw]
          simp [decide_eq_true_eq, ht0]
    | int hh =>
        by_cases hcase : hh > max_ht shape
        · simp [hcase] at hok
        · simp only [hcase, if_neg, if_pos ht0, Except.ok.injEq, Prod.mk.injEq,
            if_false] at hok
          obtain ⟨hcfg, hw⟩ := hok
          constructor
          · rw [← hcfg]
          · rw [← hw]
            simp [decide_eq_true_eq, ht0]

/-- Witness for `C6_twidth_reset` at `twidth = 0`, shape `(8, 8)`,
`height = 'auto'`. -/
theorem C6_twidth_reset_witness :
    initConfig (8, 8) .auto 3 0 false true false
      = Except.map (fun p => (p.1, { p.2 with twidth_reset := true }))
          (initConfig (8, 8) .auto 3 1 false true false)
    ∧ ∀ cfg w, initConfig (8, 8) .auto 3 0 false true false = .ok (cfg, w) →
        cfg.twidth = 1 ∧ w.twidth_reset = true :=
  C6_twidth_reset (8, 8) .auto 3 0 false true false (by decide)

/-! ## Tensor-level pipeline

The torch primitives used by `forward` / `recon_pyr` are opaque: the
embedding is parametric in the tensor type `T` and a record of the
primitives.  All dictionary construction, selection logic, validation and
loop structure of the source is reproduced exactly. -/

/-- Gaussian-integer product, modelling products of the exact complex
constants `complex(0, -1)` / `complex(0, 1)` raised to integer powers. -/
def gmul (a b : Int × Int) : Int × Int :=
  (a.1 * b.1 - a.2 * b.2, a.1 * b.2 + a.2 * b.1)

/-- Gaussian-integer power. -/
def gpow (a : Int × Int) : Nat → Int × Int
  | 0 => (1, 0)
  | n + 1 => gmul a (gpow a n)

/-- `np.power(complex(0, -1), order)` (source line 363). -/
def negI_pow (order : Nat) : Int × Int := gpow (0, -1) order

/-- `np.power(complex(0, 1), order)` (source line 813). -/
def posI_pow (order : Nat) : Int × Int := gpow (0, 1) order

/-- Opaque torch/numpy primitives consumed by the pipeline.  Each field
stands for the named torch call; their numerics are external to the
repository. -/
structure TensorOps (T : Type) where
  /-- `torch.fft.fft2(x, dim=(-2,-1), norm=n)` -/
  fft2 : String → T → T
  /-- `torch.fft.ifft2(x, dim=(-2,-1), norm=n)` -/
  ifft2 : String → T → T
  /-- `torch.fft.fftshift` -/
  fftshift : T → T
  /-- `torch.fft.ifftshift` -/
  ifftshift : T → T
  /-- elementwise product (tensor * mask) -/
  mul : T → T → T
  /-- multiplication by an exact complex constant (Gaussian integer) -/
  cmul : Int × Int → T → T
  /-- `.real` -/
  realPart : T → T
  /-- `band / np.sqrt(2)` (source line 380) -/
  divSqrt2 : T → T
  /-- `coeffs * np.sqrt(2)` (source line 808) -/
  mulSqrt2 : T → T
  /-- `2 * lodft` (source line 395) -/
  double : T → T
  /-- `reslevdft / 2` (source line 826) -/
  halve : T → T
  /-- `x[:, :, lostart[0]:loend[0], lostart[1]:loend[1]]` -/
  crop : Int × Int → Int × Int → T → T
  /-- `torch.zeros_like(template)` -/
  zerosLike : T → T
  /-- elementwise sum -/
  add : T → T → T
  /-- `resdft = torch.zeros_like(template); resdft[:, :, ls0:le0, ls1:le1] = content`
  (source lines 828-832) -/
  placeInto : T → Int × Int → Int × Int → T → T

/-- The immutable pyramid state after `__init__`: scalar configuration
plus the precomputed masks and subsampling indices (`lo0mask`, `hi0mask`,
`self._himasks`, `self._lomasks`, `self._anglemasks`,
`self._anglemasks_recon`, `self._loindices`).  The per-scale lists are
modelled as index functions. -/
structure Pyr (T : Type) where
  num_scales : Nat
  num_orientations : Nat
  order : Nat
  is_complex : Bool
  downsample : Bool
  tight_frame : Bool
  lo0mask : T
  hi0mask : T
  himasks : Nat → T
  lomasks : Nat → T
  anglemasks : Nat → Nat → T
  anglemasks_recon : Nat → Nat → T
  loindices : Nat → (Int × Int) × (Int × Int)

variable {T : Type}

/-- `self.fft_norm` (source lines 97-100). -/
def Pyr.fft_norm (p : Pyr T) : String :=
  if p.tight_frame then "ortho" else "backward"

/-- `self.scales` (source lines 169-170): all scales, coarse to fine. -/
def Pyr.scalesList (p : Pyr T) : List ScaleSel :=
  [ScaleSel.str "residual_lowpass"]
    ++ (List.range p.num_scales).reverse.map (fun (i : Nat) => ScaleSel.int (i : Int))
    ++ [ScaleSel.str "residual_highpass"]

/-- Python `max` over a list of ints.  The base value `0` is only reached
on the empty list, which the source never queries (the assert is guarded
by `len(scale_ints) != 0`); for nonempty lists this is `foldl max` over
the whole list starting from the head. -/
def pyMax : List Int → Int
  | [] => 0
  | a :: rest => rest.foldl max a

/-- Python `min` over a list of ints (see `pyMax`). -/
def pyMin : List Int → Int
  | [] => 0
  | a :: rest => rest.foldl min a

theorem foldl_max_le_iff {l : List Int} {a c : Int} :
    l.foldl max a ≤ c ↔ a ≤ c ∧ ∀ x ∈ l, x ≤ c := by
  induction l generalizing a with
  | nil => simp
  | cons b rest ih =>
      simp only [List.foldl_cons, ih, max_le_iff, List.mem_cons]
      constructor
      · rintro ⟨⟨h1, h2⟩, h3⟩
        exact ⟨h1, fun x hx => hx.elim (fun he => he ▸ h2) (h3 x)⟩
      · rintro ⟨h1, h2⟩
        exact ⟨⟨h1, h2 b (Or.inl rfl)⟩, fun x hx => h2 x (Or.inr hx)⟩

theorem le_foldl_min_iff {l : List Int} {a c : Int} :
    c ≤ l.foldl min a ↔ c ≤ a ∧ ∀ x ∈ l, c ≤ x := by
  induction l generalizing a with
  | nil => simp
  | cons b rest ih =>
      simp only [List.foldl_cons, ih, le_min_iff, List.mem_cons]
      constructor
      · rintro ⟨⟨h1, h2⟩, h3⟩
        exact ⟨h1, fun x hx => hx.elim (fun he => he ▸ h2) (h3 x)⟩
      · rintro ⟨h1, h2⟩
        exact ⟨⟨h1, h2 b (Or.inl rfl)⟩, fun x hx => h2 x (Or.inr hx)⟩

theorem le_pyMax_of_mem {l : List Int} {x : Int} (hx : x ∈ l) : x ≤ pyMax l := by
  cases l with
  | nil => simp at hx
  | cons a rest =>
      have h := (foldl_max_le_iff (l := rest) (a := a) (c := rest.foldl max a)).mp le_rfl
      rcases List.mem_cons.mp hx with rfl | hx'
      · simpa [pyMax] using h.1
      · simpa [pyMax] using h.2 x hx'

theorem pyMin_le_of_mem {l : List Int} {x : Int} (hx : x ∈ l) : pyMin l ≤ x := by
  cases l with
  | nil => simp at hx
  | cons a rest =>
      have h := (le_foldl_min_iff (l := rest) (a := a) (c := rest.foldl min a)).mp le_rfl
      rcases List.mem_cons.mp hx with rfl | hx'
      · simpa [pyMin] using h.1
      · simpa [pyMin] using h.2 x hx'

theorem pyMax_lt_of_forall {l : List Int} {c : Int} (hne : l ≠ [])
    (h : ∀ x ∈ l, x < c) : pyMax l < c := by
  cases l with
  | nil => exact absurd rfl hne
  | cons a rest =>
      have hle : rest.foldl max a ≤ c - 1 := foldl_max_le_iff.mpr
        ⟨by have := h a (List.mem_cons_self a rest); omega,
         fun x hx => by have := h x (List.mem_cons_of_mem a hx); omega⟩
      simp only [pyMax]
      omega

theorem le_pyMin_of_forall {l : List Int} {c : Int} (hne : l ≠ [])
    (h : ∀ x ∈ l, c ≤ x) : c ≤ pyMin l := by
  cases l with
  | nil => exact absurd rfl hne
  | cons a rest =>
      have hle : c ≤ rest.foldl min a := le_foldl_min_iff.mpr
        ⟨h a (List.mem_cons_self a rest), fun x hx => h x (List.mem_cons_of_mem a hx)⟩
      simpa [pyMin] using hle

/-- Association-list lookup, modelling `pyr_coeffs[k]` /
`k in pyr_coeffs.keys()`. -/
def dictGet {α β : Type} [DecidableEq α] : List (α × β) → α → Option β
  | [], _ => none
  | (k', v) :: rest, k => if k' = k then some v else dictGet rest k

theorem dictGet_append {α β : Type} [DecidableEq α] (l₁ l₂ : List (α × β)) (k : α) :
    dictGet (l₁ ++ l₂) k =
      match dictGet l₁ k with
      | some v => some v
      | none => dictGet l₂ k := by
  induction l₁ with
  | nil => simp [dictGet]
  | cons a rest ih =>
      obtain ⟨k', v⟩ := a
      by_cases h : k' = k <;> simp [dictGet, h, ih]

theorem dictGet_eq_none {α β : Type} [DecidableEq α] {l : List (α × β)} {k : α}
    (h : ∀ kv ∈ l, kv.1 ≠ k) : dictGet l k = none := by
  induction l with
  | nil => rfl
  | cons a rest ih =>
      simp only [dictGet]
      rw [if_neg (h a (List.mem_cons_self a rest))]
      exact ih (fun kv hkv => h kv (List.mem_cons_of_mem a hkv))

theorem mem_of_dictGet {α β : Type} [DecidableEq α] {l : List (α × β)} {k : α} {v : β}
    (h : dictGet l k = some v) : (k, v) ∈ l := by
  induction l with
  | nil => simp [dictGet] at h
  | cons a rest ih =>
      obtain ⟨k', v'⟩ := a
      by_cases he : k' = k
      · subst he
        have hg : dictGet ((k', v') :: rest) k' = some v' := by simp [dictGet]
        rw [hg] at h
        cases h
        exact List.mem_cons_self _ _
      · have hg : dictGet ((k', v') :: rest) k = dictGet rest k := by simp [dictGet, he]
        rw [hg] at h
        exact List.mem_cons_of_mem _ (ih h)

theorem dictGet_append_some {α β : Type} [DecidableEq α] {l₁ : List (α × β)}
    (l₂ : List (α × β)) {k : α} {v : β} (h : dictGet l₁ k = some v) :
    dictGet (l₁ ++ l₂) k = some v := by
  rw [dictGet_append, h]

theorem dictGet_append_none {α β : Type} [DecidableEq α] {l₁ : List (α × β)}
    (l₂ : List (α × β)) {k : α} (h : dictGet l₁ k = none) :
    dictGet (l₁ ++ l₂) k = dictGet l₂ k := by
  rw [dictGet_append, h]

/-! ### `forward` (source lines 285-418) -/

/-- One oriented band at scale `i`, orientation `b` (source lines 353-381):
`banddft = complex_const * lodft * anglemask * himask`, inverse shift,
inverse FFT, then real part (real pyramid) or optional `1/sqrt(2)`
normalization (complex tight frame). -/
def bandValue (p : Pyr T) (ops : TensorOps T) (i b : Nat) (lodft : T) : T :=
  let banddft := ops.mul (ops.mul (ops.cmul (negI_pow p.order) lodft) (p.anglemasks i b))
    (p.himasks i)
  let band := ops.ifft2 p.fft_norm (ops.ifftshift banddft)
  if !p.is_complex then ops.realPart band
  else if p.tight_frame then ops.divSqrt2 band else band

/-- All orientation bands of scale `i` (the inner loop, source 353-382). -/
def scaleBands (p : Pyr T) (ops : TensorOps T) (i : Nat) (lodft : T) :
    List (PyrKey × T) :=
  (List.range p.num_orientations).map (fun b => (PyrKey.band i b, bandValue p ops i b lodft))

/-- Advance `lodft` to the next scale (source lines 384-409): without
downsampling, multiply by the lowpass mask and (unless `ortho`) double;
with downsampling, crop to the recorded indices then multiply by the
(already subsampled) lowpass mask. -/
def advanceLodft (p : Pyr T) (ops : TensorOps T) (i : Nat) (lodft : T) : T :=
  if !p.downsample then
    let lodft := ops.mul lodft (p.lomasks i)
    if p.fft_norm != "ortho" then ops.double lodft else lodft
  else
    let idx := p.loindices i
    ops.mul (ops.crop idx.1 idx.2 lodft) (p.lomasks i)

/-- The per-scale loop of `forward` (source lines 347-409), indexed by the
remaining scale indices.  Bands are emitted only when `i in scales`; the
lowpass branch advances unconditionally. -/
def forwardScales (p : Pyr T) (ops : TensorOps T) (scales : List ScaleSel) :
    List Nat → T → List (PyrKey × T) × T
  | [], lodft => ([], lodft)
  | i :: rest, lodft =>
      let here := if ScaleSel.int i ∈ scales then scaleBands p ops i lodft else []
      let next := forwardScales p ops scales rest (advanceLodft p ops i lodft)
      (here ++ next.1, next.2)

/-- `Steerable_Pyramid_Freq.forward` (source lines 285-418).  The input is
the (already 4-d) image batch; the `scales must be a list` type check and
the 4-d shape assert are static here.  Empty `scales` selects everything;
integer entries are validated with the `max`/`min` assert of lines
321-324; residual selection is by string membership. -/
def forward (p : Pyr T) (ops : TensorOps T) (x : T) (scales : List ScaleSel) :
    Except String (List (PyrKey × T)) :=
  let scales := if scales = [] then p.scalesList else scales
  let scale_ints := scales.filterMap
    (fun s => match s with | .int i => some i | .str _ => none)
  if scale_ints ≠ [] ∧
      ¬(pyMax scale_ints < (p.num_scales : Int) ∧ 0 ≤ pyMin scale_ints) then
    Except.error "Scales must be within 0 and num_scales-1"
  else
    let imdft := ops.fftshift (ops.fft2 p.fft_norm x)
    let hi :=
      if ScaleSel.str "residual_highpass" ∈ scales then
        [(PyrKey.residual_highpass,
          ops.realPart (ops.ifft2 p.fft_norm (ops.ifftshift (ops.mul imdft p.hi0mask))))]
      else []
    let lodft0 := ops.mul imdft p.lo0mask
    let main := forwardScales p ops scales (List.range p.num_scales) lodft0
    let lo :=
      if ScaleSel.str "residual_lowpass" ∈ scales then
        [(PyrKey.residual_lowpass,
          ops.realPart (ops.ifft2 p.fft_norm (ops.ifftshift main.2)))]
      else []
    Except.ok (hi ++ main.1 ++ lo)

/-- The full coefficient list produced by `forward(x, scales=[])`. -/
def forwardAll (p : Pyr T) (ops : TensorOps T) (x : T) : List (PyrKey × T) :=
  let imdft := ops.fftshift (ops.fft2 p.fft_norm x)
  let lodft0 := ops.mul imdft p.lo0mask
  let main := forwardScales p ops p.scalesList (List.range p.num_scales) lodft0
  [(PyrKey.residual_highpass,
    ops.realPart (ops.ifft2 p.fft_norm (ops.ifftshift (ops.mul imdft p.hi0mask))))]
    ++ main.1
    ++ [(PyrKey.residual_lowpass, ops.realPart (ops.ifft2 p.fft_norm (ops.ifftshift main.2)))]

theorem filterMap_int_map (l : List Nat) :
    List.filterMap (fun s => match s with | ScaleSel.int i => some i | ScaleSel.str _ => none)
        (l.map (fun (i : Nat) => ScaleSel.int (i : Int)))
      = l.map (fun (i : Nat) => (i : Int)) := by
  induction l with
  | nil => rfl
  | cons a rest ih => simp only [List.map_cons, List.filterMap_cons, ih]

theorem scalesList_filterMap (p : Pyr T) :
    p.scalesList.filterMap (fun s => match s with | .int i => some i | .str _ => none)
      = (List.range p.num_scales).reverse.map (fun (i : Nat) => (i : Int)) := by
  unfold Pyr.scalesList
  rw [List.filterMap_append, List.filterMap_append, filterMap_int_map]
  simp

theorem rh_mem_scalesList (p : Pyr T) : ScaleSel.str "residual_highpass" ∈ p.scalesList := by
  unfold Pyr.scalesList
  exact List.mem_append.mpr (Or.inr (List.mem_singleton.mpr rfl))

theorem rl_mem_scalesList (p : Pyr T) : ScaleSel.str "residual_lowpass" ∈ p.scalesList := by
  unfold Pyr.scalesList
  exact List.mem_append.mpr (Or.inl (List.mem_append.mpr (Or.inl (List.mem_singleton.mpr rfl))))

theorem int_mem_scalesList (p : Pyr T) {i : Nat} (hi : i < p.num_scales) :
    ScaleSel.int i ∈ p.scalesList := by
  unfold Pyr.scalesList
  refine List.mem_append.mpr (Or.inl (List.mem_append.mpr (Or.inr ?_)))
  exact List.mem_map.mpr ⟨i, List.mem_reverse.mpr (List.mem_range.mpr hi), rfl⟩

/-- The validation of `forward` passes on `self.scales`. -/
theorem scalesList_check_ok (p : Pyr T) :
    ¬(p.scalesList.filterMap (fun s => match s with | .int i => some i | .str _ => none) ≠ [] ∧
      ¬(pyMax (p.scalesList.filterMap
            (fun s => match s with | .int i => some i | .str _ => none)) < (p.num_scales : Int) ∧
        0 ≤ pyMin (p.scalesList.filterMap
            (fun s => match s with | .int i => some i | .str _ => none)))) := by
  rw [scalesList_filterMap]
  rcases Nat.eq_zero_or_pos p.num_scales with h0 | hpos
  · simp [h0]
  · have hne : (List.range p.num_scales).reverse.map (fun (i : Nat) => (i : Int)) ≠ [] := by
      intro hcontra
      have hl := congrArg List.length hcontra
      simp only [List.length_map, List.length_reverse, List.length_range,
        List.length_nil] at hl
      omega
    have hmem : ∀ x ∈ (List.range p.num_scales).reverse.map (fun (i : Nat) => (i : Int)),
        0 ≤ x ∧ x < (p.num_scales : Int) := by
      intro x hx
      obtain ⟨i, hi, rfl⟩ := List.mem_map.mp hx
      have hlt : i < p.num_scales := List.mem_range.mp (List.mem_reverse.mp hi)
      exact ⟨Int.ofNat_nonneg i, by exact_mod_cast hlt⟩
    push_neg
    intro _
    exact ⟨pyMax_lt_of_forall hne (fun x hx => (hmem x hx).2),
      le_pyMin_of_forall hne (fun x hx => (hmem x hx).1)⟩

theorem forward_nil_eq (p : Pyr T) (ops : TensorOps T) (x : T) :
    forward p ops x [] = .ok (forwardAll p ops x) := by
  have hc := scalesList_check_ok p
  have hrh := rh_mem_scalesList p
  have hrl := rl_mem_scalesList p
  simp only [forward, forwardAll, eq_self_iff_true, if_true, if_neg hc, if_pos hrh, if_pos hrl]

/-- Every key emitted by the per-scale loop is an oriented band of one of
the processed scales. -/
theorem forwardScales_key_shape {p : Pyr T} {ops : TensorOps T} {sc : List ScaleSel}
    {idxs : List Nat} {lodft : T} {k : PyrKey} {v : T}
    (h : (k, v) ∈ (forwardScales p ops sc idxs lodft).1) :
    ∃ i ∈ idxs, ∃ b, k = PyrKey.band i b := by
  induction idxs generalizing lodft with
  | nil => simp [forwardScales] at h
  | cons i rest ih =>
      simp only [forwardScales, List.mem_append] at h
      rcases h with h | h
      · by_cases hin : ScaleSel.int i ∈ sc
        · rw [if_pos hin] at h
          simp only [scaleBands, List.mem_map, List.mem_range] at h
          obtain ⟨b, _, hb⟩ := h
          exact ⟨i, List.mem_cons_self _ _, b, (Prod.mk.injEq _ _ _ _).mp hb.symm |>.1⟩
        · rw [if_neg hin] at h
          simp at h
      · obtain ⟨i', hi', b, hb⟩ := ih h
        exact ⟨i', List.mem_cons_of_mem _ hi', b, hb⟩

theorem dictGet_scaleBands_none {p : Pyr T} {ops : TensorOps T} {i : Nat} {lodft : T}
    {k : PyrKey} (h : ∀ b, k ≠ PyrKey.band i b) :
    dictGet (scaleBands p ops i lodft) k = none := by
  apply dictGet_eq_none
  intro kv hkv
  simp only [scaleBands, List.mem_map, List.mem_range] at hkv
  obtain ⟨b, _, hb⟩ := hkv
  rw [← hb]
  exact fun he => h b he.symm

/-- The lowpass state threaded through the per-scale loop does not depend
on the `scales` selection. -/
theorem forwardScales_snd_congr (p : Pyr T) (ops : TensorOps T)
    (sc sc' : List ScaleSel) (idxs : List Nat) (lodft : T) :
    (forwardScales p ops sc idxs lodft).2 = (forwardScales p ops sc' idxs lodft).2 := by
  induction idxs generalizing lodft with
  | nil => rfl
  | cons i rest ih => simpa only [forwardScales] using ih (advanceLodft p ops i lodft)

/-- Enlarging the selection preserves every looked-up coefficient. -/
theorem dictGet_forwardScales_mono {p : Pyr T} {ops : TensorOps T}
    {sc sc' : List ScaleSel} {idxs : List Nat} (hnd : idxs.Nodup)
    (hsub : ∀ i ∈ idxs, ScaleSel.int i ∈ sc → ScaleSel.int i ∈ sc')
    {lodft : T} {k : PyrKey} {v : T}
    (h : dictGet (forwardScales p ops sc idxs lodft).1 k = some v) :
    dictGet (forwardScales p ops sc' idxs lodft).1 k = some v := by
  induction idxs generalizing lodft with
  | nil => simpa [forwardScales, dictGet] using h
  | cons i rest ih =>
      obtain ⟨hni, hndr⟩ := List.nodup_cons.mp hnd
      have hsub' : ∀ j ∈ rest, ScaleSel.int j ∈ sc → ScaleSel.int j ∈ sc' :=
        fun j hj => hsub j (List.mem_cons_of_mem _ hj)
      simp only [forwardScales] at h ⊢
      by_cases hin : ScaleSel.int i ∈ sc
      · have hin' : ScaleSel.int i ∈ sc' := hsub i (List.mem_cons_self _ _) hin
        rw [if_pos hin] at h
        rw [if_pos hin']
        cases hb : dictGet (scaleBands p ops i lodft) k with
        | some w =>
            have hw : some w = some v :=
              (dictGet_append_some
                (forwardScales p ops sc rest (advanceLodft p ops i lodft)).1 hb).symm.trans h
            obtain rfl : w = v := by injection hw
            exact dictGet_append_some _ hb
        | none =>
            rw [dictGet_append_none _ hb] at h
            rw [dictGet_append_none _ hb]
            exact ih hndr hsub' h
      · rw [if_neg hin, List.nil_append] at h
        have hkey := forwardScales_key_shape (mem_of_dictGet h)
        obtain ⟨i', hi', b, hkb⟩ := hkey
        have hne : i' ≠ i := fun he => hni (he ▸ hi')
        have hblock : dictGet (scaleBands p ops i lodft) k = none :=
          dictGet_scaleBands_none (fun b' hb' => by
            rw [hkb] at hb'
            exact hne (by injection hb'))
        by_cases hin' : ScaleSel.int i ∈ sc'
        · rw [if_pos hin', dictGet_append_none _ hblock]
          exact ih hndr hsub' h
        · rw [if_neg hin', List.nil_append]
          exact ih hndr hsub' h

theorem dictGet_cons_self {α β : Type} [DecidableEq α] (k : α) (v : β) (l : List (α × β)) :
    dictGet ((k, v) :: l) k = some v := by
  simp [dictGet]

theorem dictGet_cons_ne {α β : Type} [DecidableEq α] {k' k : α} (v' : β) (l : List (α × β))
    (h : k' ≠ k) : dictGet ((k', v') :: l) k = dictGet l k := by
  simp [dictGet, h]

/-- No residual key ever appears in the per-scale loop output. -/
theorem dictGet_forwardScales_not_band {p : Pyr T} {ops : TensorOps T}
    {sc : List ScaleSel} {idxs : List Nat} {lodft : T} {k : PyrKey}
    (hk : ∀ i b, k ≠ PyrKey.band i b) :
    dictGet (forwardScales p ops sc idxs lodft).1 k = none := by
  apply dictGet_eq_none
  intro kv hkv
  have hkv' : (kv.1, kv.2) ∈ (forwardScales p ops sc idxs lodft).1 := by simpa using hkv
  obtain ⟨i, _, b, hb⟩ := forwardScales_key_shape hkv'
  intro he
  exact hk i b (he ▸ hb)

/-- C4: every key present in `forward(x, scales=S)` carries exactly the
value that `forward(x, scales=[])` (all scales) computes for that key. -/
theorem C4_partial_selection_consistency (p : Pyr T) (ops : TensorOps T)
    (x : T) (S : List ScaleSel) (cs : List (PyrKey × T)) (k : PyrKey) (v : T)
    (hok : forward p ops x S = .ok cs) (hv : dictGet cs k = some v) :
    ∃ cs₀, forward p ops x [] = .ok cs₀ ∧ dictGet cs₀ k = some v := by
  refine ⟨forwardAll p ops x, forward_nil_eq p ops x, ?_⟩
  by_cases hS : S = []
  · subst hS
    rw [forward_nil_eq] at hok
    cases hok
    exact hv
  · rw [forward] at hok
    rw [if_neg hS] at hok
    by_cases hcond : S.filterMap
        (fun s => match s with | .int i => some i | .str _ => none) ≠ [] ∧
        ¬(pyMax (S.filterMap
              (fun s => match s with | .int i => some i | .str _ => none)) < (p.num_scales : Int) ∧
          0 ≤ pyMin (S.filterMap
              (fun s => match s with | .int i => some i | .str _ => none)))
    · rw [if_pos hcond] at hok
      exact absurd hok (by simp)
    · rw [if_neg hcond] at hok
      have hcs := Except.ok.inj hok
      subst hcs
      -- abbreviations matching the source
      set imdft := ops.fftshift (ops.fft2 p.fft_norm x) with himdft
      set lodft0 := ops.mul imdft p.lo0mask with hlodft0
      have hsnd := forwardScales_snd_congr p ops S p.scalesList (List.range p.num_scales) lodft0
      have hnd := List.nodup_range p.num_scales
      have hsub : ∀ i ∈ List.range p.num_scales,
          ScaleSel.int i ∈ S → ScaleSel.int i ∈ p.scalesList :=
        fun i hi _ => int_mem_scalesList p (List.mem_range.mp hi)
      rw [List.append_assoc] at hv
      simp only [forwardAll, ← himdft, ← hlodft0]
      rw [List.append_assoc]
      cases k with
      | residual_highpass =>
          have hmainS : dictGet (forwardScales p ops S (List.range p.num_scales) lodft0).1
              PyrKey.residual_highpass = none :=
            dictGet_forwardScales_not_band (fun i b h => PyrKey.noConfusion h)
          by_cases hrh : ScaleSel.str "residual_highpass" ∈ S
          · rw [if_pos hrh, List.singleton_append, dictGet_cons_self] at hv
            rw [List.singleton_append, dictGet_cons_self]
            exact hv
          · rw [if_neg hrh, List.nil_append, dictGet_append_none _ hmainS] at hv
            by_cases hrl : ScaleSel.str "residual_lowpass" ∈ S
            · rw [if_pos hrl] at hv
              simp [dictGet] at hv
            · rw [if_neg hrl] at hv
              simp [dictGet] at hv
      | band i b =>
          have hsingle : ∀ (c : Prop) (inst : Decidable c) (w : T),
              dictGet (if c then [(PyrKey.residual_highpass, w)] else [])
                (PyrKey.band i b) = none := by
            intro c inst w
            split <;> simp [dictGet]
          have hsinglelo : ∀ (c : Prop) (inst : Decidable c) (w : T),
              dictGet (if c then [(PyrKey.residual_lowpass, w)] else [])
                (PyrKey.band i b) = none := by
            intro c inst w
            split <;> simp [dictGet]
          rw [dictGet_append_none _ (hsingle _ _ _)] at hv
          cases hmain : dictGet (forwardScales p ops S (List.range p.num_scales) lodft0).1
              (PyrKey.band i b) with
          | some w =>
              rw [dictGet_append_some _ hmain] at hv
              obtain rfl : w = v := Option.some.inj hv
              have hfull := dictGet_forwardScales_mono hnd hsub hmain
              rw [List.singleton_append, dictGet_cons_ne _ _ (by intro h; cases h)]
              exact dictGet_append_some _ hfull
          | none =>
              rw [dictGet_append_none _ hmain, hsinglelo] at hv
              cases hv
      | residual_lowpass =>
          have hsingle : ∀ (c : Prop) (inst : Decidable c) (w : T),
              dictGet (if c then [(PyrKey.residual_highpass, w)] else [])
                PyrKey.residual_lowpass = none := by
            intro c inst w
            split <;> simp [dictGet]
          have hmainS : dictGet (forwardScales p ops S (List.range p.num_scales) lodft0).1
              PyrKey.residual_lowpass = none :=
            dictGet_forwardScales_not_band (fun i b h => PyrKey.noConfusion h)
          have hmainA : dictGet
              (forwardScales p ops p.scalesList (List.range p.num_scales) lodft0).1
              PyrKey.residual_lowpass = none :=
            dictGet_forwardScales_not_band (fun i b h => PyrKey.noConfusion h)
          rw [dictGet_append_none _ (hsingle _ _ _), dictGet_append_none _ hmainS] at hv
          by_cases hrl : ScaleSel.str "residual_lowpass" ∈ S
          · rw [if_pos hrl, dictGet_cons_self] at hv
            rw [List.singleton_append, dictGet_cons_ne _ _ (by intro h; cases h),
              dictGet_append_none _ hmainA, dictGet_cons_self, ← hsnd]
            exact hv
          · rw [if_neg hrl] at hv
            cases hv

/-- Trivial tensor primitives on `Unit`, used to evaluate the pipeline
control flow on concrete inputs. -/
def unitOps : TensorOps Unit where
  fft2 := fun _ _ => ()
  ifft2 := fun _ _ => ()
  fftshift := fun _ => ()
  ifftshift := fun _ => ()
  mul := fun _ _ => ()
  cmul := fun _ _ => ()
  realPart := fun _ => ()
  divSqrt2 := fun _ => ()
  mulSqrt2 := fun _ => ()
  double := fun _ => ()
  halve := fun _ => ()
  crop := fun _ _ _ => ()
  zerosLike := fun _ => ()
  add := fun _ _ => ()
  placeInto := fun _ _ _ _ => ()

/-- A concrete 2-scale, 2-orientation pyramid over the trivial tensor
type, for evaluating control flow. -/
def unitPyr : Pyr Unit where
  num_scales := 2
  num_orientations := 2
  order := 1
  is_complex := false
  downsample := true
  tight_frame := false
  lo0mask := ()
  hi0mask := ()
  himasks := fun _ => ()
  lomasks := fun _ => ()
  anglemasks := fun _ _ => ()
  anglemasks_recon := fun _ _ => ()
  loindices := fun _ => ((0, 0), (0, 0))

/-- Witness for `C4_partial_selection_consistency`: a selected run with
`scales=[0]`, looked up at key `(0, 1)`. -/
theorem C4_partial_selection_consistency_witness :
    ∃ cs₀, forward unitPyr unitOps () [] = .ok cs₀ ∧
      dictGet cs₀ (PyrKey.band 0 1) = some () :=
  C4_partial_selection_consistency unitPyr unitOps () [ScaleSel.int 0]
    [(PyrKey.band 0 0, ()), (PyrKey.band 0 1, ())] (PyrKey.band 0 1) () rfl rfl

/-- C5 counterexample: a `scales` entry that is a string other than the
two residual names does not raise; `forward` returns an (empty) coefficient
dictionary, silently ignoring the entry. -/
theorem C5_counterexample :
    forward unitPyr unitOps () [ScaleSel.str "foo"] = Except.ok [] := rfl

/-- The keys `forward` produces for a given (non-empty) selection. -/
def forwardKeys (p : Pyr T) (scales : List ScaleSel) : List PyrKey :=
  (if ScaleSel.str "residual_highpass" ∈ scales then [PyrKey.residual_highpass] else [])
    ++ ((List.range p.num_scales).filter
          (fun (i : Nat) => decide (ScaleSel.int (i : Int) ∈ scales))).flatMap
        (fun i => (List.range p.num_orientations).map (PyrKey.band i))
    ++ (if ScaleSel.str "residual_lowpass" ∈ scales then [PyrKey.residual_lowpass] else [])

theorem forwardScales_keys (p : Pyr T) (ops : TensorOps T) (sc : List ScaleSel)
    (idxs : List Nat) (lodft : T) :
    (forwardScales p ops sc idxs lodft).1.map Prod.fst
      = (idxs.filter (fun (i : Nat) => decide (ScaleSel.int (i : Int) ∈ sc))).flatMap
          (fun i => (List.range p.num_orientations).map (PyrKey.band i)) := by
  induction idxs generalizing lodft with
  | nil => rfl
  | cons i rest ih =>
      by_cases hin : ScaleSel.int i ∈ sc
      · simp only [forwardScales, List.map_append, List.filter_cons, hin,
          if_pos hin, eq_self_iff_true, if_true, List.flatMap_cons, ih, scaleBands,
          List.map_map, decide_True]
        rfl
      · simp only [forwardScales, List.map_append, List.filter_cons, hin,
          if_neg hin, if_false, ih, List.map_nil, List.nil_append, decide_False]
        simp

/-- C5 (amended): an integer `scales` entry outside `[0, num_scales-1]`
raises a fatal error, but a string entry other than the two residual names
is silently ignored: any non-empty selection whose integer entries are all
valid succeeds, producing exactly the keys of its recognized entries. -/
theorem C5_scales_validation (p : Pyr T) (ops : TensorOps T) (x : T) :
    (∀ S (i : Int), ScaleSel.int i ∈ S → (i < 0 ∨ (p.num_scales : Int) ≤ i) →
      forward p ops x S = .error "Scales must be within 0 and num_scales-1")
    ∧ (∀ S, S ≠ [] →
        (∀ (i : Int), ScaleSel.int i ∈ S → 0 ≤ i ∧ i < (p.num_scales : Int)) →
        ∃ cs, forward p ops x S = .ok cs ∧ cs.map Prod.fst = forwardKeys p S) := by
  constructor
  · intro S i hmem hbad
    have hS : S ≠ [] := List.ne_nil_of_mem hmem
    have hi_ints : i ∈ S.filterMap
        (fun s => match s with | .int j => some j | .str _ => none) :=
      List.mem_filterMap.mpr ⟨ScaleSel.int i, hmem, rfl⟩
    have hne : S.filterMap
        (fun s => match s with | .int j => some j | .str _ => none) ≠ [] :=
      List.ne_nil_of_mem hi_ints
    rw [forward, if_neg hS, if_pos]
    refine ⟨hne, ?_⟩
    rintro ⟨hmax, hmin2⟩
    rcases hbad with hneg | hbig
    · exact absurd (le_trans hmin2 (pyMin_le_of_mem hi_ints)) (by omega)
    · exact absurd (lt_of_le_of_lt (le_pyMax_of_mem hi_ints) hmax) (by omega)
  · intro S hS hvalid
    have hbound : ∀ x ∈ S.filterMap
        (fun s => match s with | .int j => some j | .str _ => none),
        0 ≤ x ∧ x < (p.num_scales : Int) := by
      intro x hx
      obtain ⟨s, hs, hsx⟩ := List.mem_filterMap.mp hx
      cases s with
      | int j =>
          obtain rfl : j = x := Option.some.inj hsx
          exact hvalid j hs
      | str _ => cases hsx
    rw [forward, if_neg hS, if_neg]
    · refine ⟨_, rfl, ?_⟩
      simp only [List.map_append, forwardKeys, forwardScales_keys]
      by_cases hrh : ScaleSel.str "residual_highpass" ∈ S <;>
        by_cases hrl : ScaleSel.str "residual_lowpass" ∈ S <;>
          simp [hrh, hrl]
    · push_neg
      intro hne
      exact ⟨pyMax_lt_of_forall hne (fun x hx => (hbound x hx).2),
        le_pyMin_of_forall hne (fun x hx => (hbound x hx).1)⟩

/-- Witness for `C5_scales_validation`: out-of-range integer 5 errors on a
2-scale pyramid; the residual-highpass-only selection succeeds with
exactly that key. -/
theorem C5_scales_validation_witness :
    forward unitPyr unitOps () [ScaleSel.int 5]
        = .error "Scales must be within 0 and num_scales-1"
    ∧ ∃ cs, forward unitPyr unitOps () [ScaleSel.str "residual_highpass"] = .ok cs
        ∧ cs.map Prod.fst = forwardKeys unitPyr [ScaleSel.str "residual_highpass"] := by
  constructor
  · exact (C5_scales_validation unitPyr unitOps ()).1 [ScaleSel.int 5] 5
      (List.mem_singleton.mpr rfl) (Or.inr (by decide))
  · exact (C5_scales_validation unitPyr unitOps ()).2 [ScaleSel.str "residual_highpass"]
      (by simp) (fun i hi => absurd hi (by simp))

/-! ### `recon_pyr` (source lines 550-835) -/

/-- Python string-key equality against the dictionary's residual keys:
a string `s` is a member of `pyr_coeffs.keys()` iff it is one of the two
residual names and that key is present. -/
def strKey (s : String) : Option PyrKey :=
  if s = "residual_highpass" then some PyrKey.residual_highpass
  else if s = "residual_lowpass" then some PyrKey.residual_lowpass
  else none

/-- The message of the completeness check in `recon_pyr`
(source lines 714-716 and 720-722). -/
def missingMsg (s : String) : String :=
  "scale " ++ s ++ " not in pyr_coeffs! pyr_coeffs must include all scales, " ++
    "so make sure forward() was called with arg scales=[]"

/-- Sequential `for` loop over a list in the `Except` monad (stops at the
first error), used for the completeness loop of `recon_pyr`. -/
def exceptForM {A : Type} : List A → (A → Except String Unit) → Except String Unit
  | [], _ => Except.ok ()
  | a :: rest, f => do
      f a
      exceptForM rest f

/-- One iteration of the completeness loop of `recon_pyr` (source lines
711-722): a string scale must be a present key; an int scale must have
all its `(scale, band)` keys present. -/
def checkScaleEntry (p : Pyr T) (keys : List PyrKey) (sel : ScaleSel) :
    Except String Unit :=
  match sel with
  | .str s =>
      match strKey s with
      | some k => if k ∈ keys then Except.ok () else Except.error (missingMsg s)
      | none => Except.error (missingMsg s)
  | .int i =>
      exceptForM (List.range p.num_orientations) (fun b =>
        if PyrKey.band i.toNat b ∈ keys then Except.ok ()
        else Except.error (missingMsg (toString i)))

/-- The completeness check at the top of `recon_pyr` (source lines
709-722), iterating over `self.scales`. -/
def reconCompleteCheck (p : Pyr T) (keys : List PyrKey) : Except String Unit :=
  exceptForM p.scalesList (checkScaleEntry p keys)

/-- The `levels` argument of `recon_pyr`: `'all'` or a list of
ints/strings (a single int or string is the one-element list). -/
inductive LevelsArg where
  | all
  | sels (l : List ScaleSel)

/-- The `bands` argument of `recon_pyr`: `'all'` or a list of ints. -/
inductive BandsArg where
  | all
  | ints (l : List Int)

/-- Python `str.isdigit` (restricted to ASCII digits, which is all the
source ever passes). -/
def pyIsDigit (s : String) : Bool :=
  !s.isEmpty && s.all Char.isDigit

/-- `Steerable_Pyramid_Freq._recon_levels_check` (source lines 550-597).
`pyr_size_keys` stands for `self.pyr_size.keys()`, the mutable attribute
recorded by the last `forward` call. -/
def recon_levels_check (p : Pyr T) (pyr_size_keys : List PyrKey)
    (levels : LevelsArg) : Except String (List ScaleSel) := do
  let levels ←
    match levels with
    | .all =>
        Except.ok ([ScaleSel.str "residual_highpass"]
          ++ (List.range p.num_scales).map (fun (i : Nat) => ScaleSel.int (i : Int))
          ++ [ScaleSel.str "residual_lowpass"])
    | .sels l =>
        let levs_nums : List Int := l.filterMap (fun x =>
          match x with
          | .int i => some i
          | .str s => if pyIsDigit s then some (((s.toNat?).getD 0 : Nat) : Int) else none)
        if ¬ (levs_nums.all (fun i => decide (0 ≤ i))) then
          Except.error "Level numbers must be non-negative."
        else if ¬ (levs_nums.all (fun i => decide (i < (p.num_scales : Int)))) then
          Except.error "Level numbers must be in the range [0, num_scales-1]"
        else
          let levs_tmp := (levs_nums.insertionSort (· ≤ ·)).map ScaleSel.int
          let levs_tmp := if ScaleSel.str "residual_highpass" ∈ l then
              ScaleSel.str "residual_highpass" :: levs_tmp else levs_tmp
          let levs_tmp := if ScaleSel.str "residual_lowpass" ∈ l then
              levs_tmp ++ [ScaleSel.str "residual_lowpass"] else levs_tmp
          Except.ok levs_tmp
  let levels := if PyrKey.residual_lowpass ∉ pyr_size_keys ∧
      ScaleSel.str "residual_lowpass" ∈ levels then levels.dropLast else levels
  let levels := if PyrKey.residual_highpass ∉ pyr_size_keys ∧
      ScaleSel.str "residual_highpass" ∈ levels then levels.drop 1 else levels
  Except.ok levels

/-- `Steerable_Pyramid_Freq._recon_bands_check` (source lines 599-628). -/
def recon_bands_check (p : Pyr T) (bands : BandsArg) : Except String (List Int) :=
  match bands with
  | .all => Except.ok ((List.range p.num_orientations).map (fun (b : Nat) => (b : Int)))
  | .ints l =>
      if ¬ (l.all (fun b => decide (0 ≤ b))) then
        Except.error "Error: band numbers must be larger than 0."
      else if ¬ (l.all (fun b => decide (b < (p.num_orientations : Int)))) then
        Except.error "Error: band numbers must be in the range [0, num_orientations-1]"
      else Except.ok l

/-- `Steerable_Pyramid_Freq._recon_keys` (source lines 630-677).
`recon_pyr` always passes `max_orientations=None`; the filtering branch is
kept for fidelity. -/
def recon_keys_fn (p : Pyr T) (pyr_size_keys : List PyrKey) (levels : LevelsArg)
    (bands : BandsArg) (max_orientations : Option Int) :
    Except String (List PyrKey) := do
  let levels ← recon_levels_check p pyr_size_keys levels
  let bands ← Except.ok (← recon_bands_check p bands)
  let bands := match max_orientations with
    | none => bands
    | some mo => bands.filter (fun i => decide (i < mo))
  Except.ok (levels.flatMap (fun level =>
    match level with
    | .str s => (strKey s).toList
    | .int lev => bands.map (fun b => PyrKey.band lev.toNat b.toNat)))

/-- `Steerable_Pyramid_Freq._recon_levels` (source lines 762-835),
recursion expressed on the number of remaining scales (`remaining = 0`
is the base case `scale == num_scales`).  After the completeness check of
`recon_pyr` every lookup hits, so the `default` fallbacks are never
consulted on the paths `recon_pyr` uses. -/
def reconLevels (p : Pyr T) (ops : TensorOps T) [Inhabited T]
    (pyr_coeffs : List (PyrKey × T)) (recon_keys : List PyrKey) :
    Nat → T
  | 0 =>
      if PyrKey.residual_lowpass ∈ recon_keys then
        ops.fftshift (ops.fft2 p.fft_norm
          ((dictGet pyr_coeffs PyrKey.residual_lowpass).getD default))
      else
        ops.fft2 p.fft_norm (ops.zerosLike
          ((dictGet pyr_coeffs PyrKey.residual_lowpass).getD default))
  | r + 1 =>
      let scale := p.num_scales - (r + 1)
      let himask := p.himasks scale
      let template := (dictGet pyr_coeffs (PyrKey.band scale 0)).getD default
      let orientdft := (List.range p.num_orientations).foldl (fun acc b =>
        if PyrKey.band scale b ∈ recon_keys then
          let coeffs := (dictGet pyr_coeffs (PyrKey.band scale b)).getD default
          let coeffs := if p.tight_frame ∧ p.is_complex then ops.mulSqrt2 coeffs else coeffs
          let banddft := ops.fftshift (ops.fft2 p.fft_norm coeffs)
          let banddft := ops.mul (ops.mul (ops.cmul (posI_pow p.order) banddft)
            (p.anglemasks_recon scale b)) himask
          ops.add acc banddft
        else acc) (ops.zerosLike template)
      let idx := p.loindices scale
      let lomask := p.lomasks scale
      let reslevdft := reconLevels p ops pyr_coeffs recon_keys r
      let reslevdft := if (¬ p.tight_frame) ∧ (¬ p.downsample) then
          ops.halve reslevdft else reslevdft
      let resdft := ops.placeInto template idx.1 idx.2 (ops.mul reslevdft lomask)
      ops.add resdft orientdft

/-- `Steerable_Pyramid_Freq.recon_pyr` (source lines 679-760):
completeness check first, then the (validated but unused) `twidth`
normalization, selector validation, recursive reconstruction, residual
highpass combination, and the final inverse FFT. -/
def recon_pyr (p : Pyr T) (ops : TensorOps T) [Inhabited T]
    (pyr_size_keys : List PyrKey) (pyr_coeffs : List (PyrKey × T))
    (levels : LevelsArg) (bands : BandsArg) (twidth : Int) :
    Except String T := do
  reconCompleteCheck p (pyr_coeffs.map Prod.fst)
  let _twidth : Int := if twidth ≤ 0 then 1 else twidth
  let recon_keys ← recon_keys_fn p pyr_size_keys levels bands none
  let recondft := reconLevels p ops pyr_coeffs recon_keys p.num_scales
  let outdft :=
    if PyrKey.residual_highpass ∈ recon_keys then
      ops.add (ops.mul recondft p.lo0mask)
        (ops.mul (ops.fftshift (ops.fft2 p.fft_norm
          ((dictGet pyr_coeffs PyrKey.residual_highpass).getD default))) p.hi0mask)
    else
      ops.mul recondft p.lo0mask
  Except.ok (ops.realPart (ops.ifft2 p.fft_norm (ops.ifftshift outdft)))

theorem ebind_ok {α β : Type} (a : α) (k : α → Except String β) :
    (Except.ok a >>= k) = k a := rfl

theorem ebind_error {α β : Type} (e : String) (k : α → Except String β) :
    ((Except.error e : Except String α) >>= k) = Except.error e := rfl

theorem exceptForM_ok_iff {A : Type} (l : List A) (f : A → Except String Unit) :
    exceptForM l f = Except.ok () ↔ ∀ x ∈ l, f x = Except.ok () := by
  induction l with
  | nil => simp [exceptForM]
  | cons a rest ih =>
      rw [exceptForM]
      cases hfa : f a with
      | ok u =>
          cases u
          rw [ebind_ok]
          constructor
          · intro h x hx
            rcases List.mem_cons.mp hx with rfl | hx'
            · exact hfa
            · exact ih.mp h x hx'
          · intro h
            exact ih.mpr (fun x hx => h x (List.mem_cons_of_mem _ hx))
      | error e =>
          rw [ebind_error]
          constructor
          · intro h
            cases h
          · intro h
            have hcontra := h a (List.mem_cons_self _ _)
            rw [hfa] at hcontra
            cases hcontra

theorem exceptForM_error_shape {A : Type} (l : List A) (f : A → Except String Unit)
    (hf : ∀ x ∈ l, f x = Except.ok () ∨ ∃ s, f x = Except.error (missingMsg s)) :
    exceptForM l f = Except.ok () ∨ ∃ s, exceptForM l f = Except.error (missingMsg s) := by
  induction l with
  | nil => left; simp [exceptForM]
  | cons a rest ih =>
      rw [exceptForM]
      rcases hf a (List.mem_cons_self _ _) with hok | ⟨s, herr⟩
      · rw [hok, ebind_ok]
        exact ih (fun x hx => hf x (List.mem_cons_of_mem _ hx))
      · rw [herr, ebind_error]
        exact Or.inr ⟨s, rfl⟩

theorem checkScaleEntry_shape (p : Pyr T) (keys : List PyrKey) (sel : ScaleSel) :
    checkScaleEntry p keys sel = Except.ok ()
      ∨ ∃ s, checkScaleEntry p keys sel = Except.error (missingMsg s) := by
  cases sel with
  | str s =>
      simp only [checkScaleEntry]
      cases strKey s with
      | some k =>
          by_cases hk : k ∈ keys
          · left; simp [hk]
          · right; exact ⟨s, by simp [hk]⟩
      | none => right; exact ⟨s, rfl⟩
  | int i =>
      simp only [checkScaleEntry]
      apply exceptForM_error_shape
      intro b _
      by_cases hb : PyrKey.band i.toNat b ∈ keys
      · left; rw [if_pos hb]
      · right; exact ⟨toString i, by rw [if_neg hb]⟩

/-- The keys the pyramid defines: both residuals and all
`(scale, orientation)` pairs in range. -/
def IsDefinedKey (p : Pyr T) : PyrKey → Prop
  | .band s b => s < p.num_scales ∧ b < p.num_orientations
  | .residual_highpass => True
  | .residual_lowpass => True

theorem reconCompleteCheck_error_of_missing (p : Pyr T) (keys : List PyrKey)
    (k : PyrKey) (hdef : IsDefinedKey p k) (hmiss : k ∉ keys) :
    ∃ s, reconCompleteCheck p keys = Except.error (missingMsg s) := by
  have hshape := exceptForM_error_shape p.scalesList (checkScaleEntry p keys)
    (fun sel _ => checkScaleEntry_shape p keys sel)
  rcases hshape with hok | herr
  · exfalso
    have hall := (exceptForM_ok_iff _ _).mp hok
    cases k with
    | residual_highpass =>
        have h := hall (ScaleSel.str "residual_highpass") (rh_mem_scalesList p)
        simp [checkScaleEntry, strKey, hmiss] at h
    | residual_lowpass =>
        have h := hall (ScaleSel.str "residual_lowpass") (rl_mem_scalesList p)
        simp [checkScaleEntry, strKey, hmiss] at h
    | band s b =>
        obtain ⟨hs, hb⟩ := hdef
        have h := hall (ScaleSel.int (s : Int)) (int_mem_scalesList p hs)
        simp only [checkScaleEntry] at h
        have hin := (exceptForM_ok_iff _ _).mp h b (List.mem_range.mpr hb)
        simp [Int.toNat_ofNat, hmiss] at hin
  · exact herr

/-- C7: a coefficient dictionary missing any key the pyramid defines makes
`recon_pyr` fail with the completeness-check error, before any
reconstruction, for every `levels`/`bands`/`twidth` selector. -/
theorem C7_recon_requires_complete_dict [Inhabited T] (p : Pyr T) (ops : TensorOps T)
    (pyr_size_keys : List PyrKey) (pyr_coeffs : List (PyrKey × T)) (k : PyrKey)
    (hdef : IsDefinedKey p k) (hmiss : k ∉ pyr_coeffs.map Prod.fst)
    (levels : LevelsArg) (bands : BandsArg) (twidth : Int) :
    ∃ s, recon_pyr p ops pyr_size_keys pyr_coeffs levels bands twidth
      = Except.error (missingMsg s) := by
  obtain ⟨s, hs⟩ := reconCompleteCheck_error_of_missing p (pyr_coeffs.map Prod.fst) k hdef hmiss
  refine ⟨s, ?_⟩
  rw [recon_pyr, hs]
  rfl

/-- Witness for `C7_recon_requires_complete_dict`: the empty dictionary
misses `residual_highpass`. -/
theorem C7_recon_requires_complete_dict_witness :
    ∃ s, recon_pyr unitPyr unitOps [] [] LevelsArg.all BandsArg.all 1
      = Except.error (missingMsg s) :=
  C7_recon_requires_complete_dict unitPyr unitOps [] [] PyrKey.residual_highpass
    trivial (by simp) LevelsArg.all BandsArg.all 1

/-- C10: the output of `recon_pyr` does not depend on its `twidth`
argument; for any two positive values the results are identical (the
argument is validated, then never used — reconstruction uses only the
masks precomputed at construction). -/
theorem C10_recon_twidth_unused [Inhabited T] (p : Pyr T) (ops : TensorOps T)
    (pyr_size_keys : List PyrKey) (pyr_coeffs : List (PyrKey × T))
    (levels : LevelsArg) (bands : BandsArg) (t1 t2 : Int)
    (h1 : 0 < t1) (h2 : 0 < t2) :
    recon_pyr p ops pyr_size_keys pyr_coeffs levels bands t1
      = recon_pyr p ops pyr_size_keys pyr_coeffs levels bands t2 := rfl

/-- Witness for `C10_recon_twidth_unused` at `twidth` 1 and 2 on a
complete concrete dictionary. -/
theorem C10_recon_twidth_unused_witness :
    recon_pyr unitPyr unitOps
        [PyrKey.residual_highpass, PyrKey.band 0 0, PyrKey.band 0 1,
          PyrKey.band 1 0, PyrKey.band 1 1, PyrKey.residual_lowpass]
        [(PyrKey.residual_highpass, ()), (PyrKey.band 0 0, ()), (PyrKey.band 0 1, ()),
          (PyrKey.band 1 0, ()), (PyrKey.band 1 1, ()), (PyrKey.residual_lowpass, ())]
        LevelsArg.all BandsArg.all 1
      = recon_pyr unitPyr unitOps
        [PyrKey.residual_highpass, PyrKey.band 0 0, PyrKey.band 0 1,
          PyrKey.band 1 0, PyrKey.band 1 1, PyrKey.residual_lowpass]
        [(PyrKey.residual_highpass, ()), (PyrKey.band 0 0, ()), (PyrKey.band 0 1, ()),
          (PyrKey.band 1 0, ()), (PyrKey.band 1 1, ()), (PyrKey.residual_lowpass, ())]
        LevelsArg.all BandsArg.all 2 :=
  C10_recon_twidth_unused unitPyr unitOps _ _ LevelsArg.all BandsArg.all 1 2
    (by decide) (by decide)

/-! ### Pyramid/tensor codec: `convert_pyr_to_tensor` (source 420-492) and
`convert_tensor_to_pyr` (source 494-548)

These two static methods only inspect a tensor's dtype (real vs complex),
its spatial shape (through `torch.cat`'s shape check), and its channel
axis.  A tensor is therefore modelled as a dtype flag, a spatial shape,
and the list of per-channel slices; each slice carries its (real, imag)
content, the imaginary component being the fixed datum `zv` for
real-dtype tensors. -/

/-- Codec-level model of a torch tensor (batch dimension is untouched by
the codec and omitted): dtype, spatial shape, channel slices. -/
structure PT (V : Type) where
  cplx : Bool
  hw : Nat × Nat
  chans : List (V × V)
deriving DecidableEq, Repr

variable {V : Type} [DecidableEq V]

/-- `t[:, i:i+n, ...]`: Python slicing, silently shorter out of range. -/
def PT.sliceChans (t : PT V) (i n : Nat) : PT V :=
  ⟨t.cplx, t.hw, (t.chans.drop i).take n⟩

/-- `t[:, i, ...].unsqueeze(1)`: single-channel selection, `IndexError`
out of range. -/
def PT.chanAt (t : PT V) (i : Nat) : Except String (PT V) :=
  match (t.chans.drop i).take 1 with
  | [c] => Except.ok ⟨t.cplx, t.hw, [c]⟩
  | _ => Except.error "IndexError: index out of range"

/-- `.real`: real dtype, real components. -/
def PT.realComp (zv : V) (t : PT V) : PT V :=
  ⟨false, t.hw, t.chans.map (fun c => (c.1, zv))⟩

/-- `.imag`: real dtype, imaginary components. -/
def PT.imagComp (zv : V) (t : PT V) : PT V :=
  ⟨false, t.hw, t.chans.map (fun c => (c.2, zv))⟩

/-- `.type(torch.float)`: cast to real dtype (keeps the real part). -/
def PT.toFloat (zv : V) (t : PT V) : PT V :=
  ⟨false, t.hw, t.chans.map (fun c => (c.1, zv))⟩

/-- `torch.cat(ts, dim=1)`: shape check, dtype promotion, channel
concatenation.  Empty input raises, as in torch. -/
def catChans : List (PT V) → Except String (PT V)
  | [] => Except.error "cat of an empty list of tensors"
  | t :: ts =>
      if ts.all (fun u => u.hw = t.hw) then
        Except.ok ⟨(t :: ts).any (fun u => u.cplx), t.hw, (t :: ts).flatMap (fun u => u.chans)⟩
      else Except.error "Sizes of tensors must match"

/-- `torch.view_as_complex(rearrange(t, 'b c h w -> b h w c').unsqueeze(1).contiguous())`
on a two-channel slice: requires a real tensor whose rearranged last
dimension has size exactly 2. -/
def viewAsComplex (t : PT V) : Except String (PT V) :=
  match t.chans with
  | [a, b] =>
      if t.cplx then Except.error "view_as_complex is only supported for real tensors"
      else Except.ok ⟨true, t.hw, [(a.1, b.1)]⟩
  | _ => Except.error "view_as_complex: tensor must have a last dimension of size 2"

/-- Python `'residual' in k`: substring test for the two string keys,
(false) element test for the int tuples. -/
def isResidual : PyrKey → Bool
  | .band _ _ => false
  | _ => true

/-- The channel-`ch` iteration of the packing loop of
`convert_pyr_to_tensor` (source lines 460-481): residual slices are
collected apart and re-inserted (highpass first, lowpass last) around the
oriented-band slices, complex bands being split into real/imag slices
when requested. -/
def packChannel (zv : V) (pyr_coeffs : List (PyrKey × PT V)) (split_complex : Bool)
    (ch : Nat) : List (PT V) :=
  let pyr_keys := pyr_coeffs.map Prod.fst
  let dfl : PT V := ⟨false, (0, 0), []⟩
  let coeff_list_resid := pyr_coeffs.filterMap (fun kv =>
    if isResidual kv.1 then some (kv.2.sliceChans ch 1) else none)
  let coeff_list_bands := pyr_coeffs.flatMap (fun kv =>
    if isResidual kv.1 then []
    else
      let coeffs := kv.2.sliceChans ch 1
      if coeffs.cplx && split_complex then [coeffs.realComp zv, coeffs.imagComp zv]
      else [coeffs])
  if PyrKey.residual_highpass ∈ pyr_keys then
    let withHi := coeff_list_resid.getD 0 dfl :: coeff_list_bands
    if PyrKey.residual_lowpass ∈ pyr_keys then
      withHi ++ [coeff_list_resid.getD 1 dfl]
    else withHi
  else if PyrKey.residual_lowpass ∈ pyr_keys then
    coeff_list_bands ++ [coeff_list_resid.getD 0 dfl]
  else coeff_list_bands

/-- `Steerable_Pyramid_Freq.convert_pyr_to_tensor` (source lines 420-492).
The `coeff_list_resid[0]/[1]` accesses are guarded by the key-membership
tests exactly as in the source (the `getD` defaults are unreachable). -/
def convert_pyr_to_tensor (zv : V) (pyr_coeffs : List (PyrKey × PT V))
    (split_complex : Bool) :
    Except String (PT V × (Nat × Bool × List PyrKey)) :=
  match pyr_coeffs with
  | [] => Except.error "IndexError: empty pyramid dictionary"
  | first :: _ =>
      let pyr_keys := pyr_coeffs.map Prod.fst
      let test_band := first.2
      let num_channels := test_band.chans.length
      let coeff_list := (List.range num_channels).flatMap
        (packChannel zv pyr_coeffs split_complex)
      match catChans coeff_list with
      | Except.error _ =>
          Except.error ("feature maps could not be concatenated into tensor. " ++
            "Check that you are using coefficients that are not downsampled across scales. " ++
            "This is done with the downsample=False argument for the pyramid")
      | Except.ok pyr_tensor =>
          Except.ok (pyr_tensor, (num_channels, split_complex, pyr_keys))

/-- Ordered-dictionary assignment `d[k] = v`: replaces the (unique)
binding of `k`, appends when absent. -/
def dictAssign {α β : Type} [DecidableEq α] : List (α × β) → α → β → List (α × β)
  | [], k, v => [(k, v)]
  | kv :: rest, k, v => if kv.1 = k then (k, v) :: rest else kv :: dictAssign rest k v

/-- `pyr_coeffs[k] = band` / `pyr_coeffs[k] = torch.cat([pyr_coeffs[k], band], dim=1)`
(source lines 543-546): ordered-dictionary insert-or-extend. -/
def dictUpdate (d : List (PyrKey × PT V)) (k : PyrKey) (band : PT V) :
    Except String (List (PyrKey × PT V)) :=
  match dictGet d k with
  | none => Except.ok (d ++ [(k, band)])
  | some old => (catChans [old, band]).map (fun merged => dictAssign d k merged)

/-- One key of the unpacking loop of `convert_tensor_to_pyr`
(source lines 531-546): consumes one channel (residual or non-split) or
two channels (split complex) at position `i`. -/
def unpackStep (zv : V) (pyr_tensor : PT V) (split_complex : Bool)
    (st : Nat × List (PyrKey × PT V)) (k : PyrKey) :
    Except String (Nat × List (PyrKey × PT V)) :=
  if isResidual k then do
    let band ← pyr_tensor.chanAt st.1
    let band := band.toFloat zv
    let d ← dictUpdate st.2 k band
    Except.ok (st.1 + 1, d)
  else if split_complex then do
    let band ← viewAsComplex (pyr_tensor.sliceChans st.1 2)
    let d ← dictUpdate st.2 k band
    Except.ok (st.1 + 2, d)
  else do
    let band ← pyr_tensor.chanAt st.1
    let d ← dictUpdate st.2 k band
    Except.ok (st.1 + 1, d)

/-- `Steerable_Pyramid_Freq.convert_tensor_to_pyr` (source lines 494-548). -/
def convert_tensor_to_pyr (zv : V) (pyr_tensor : PT V) (num_channels : Nat)
    (split_complex : Bool) (pyr_keys : List PyrKey) :
    Except String (List (PyrKey × PT V)) := do
  let final ← (List.range num_channels).foldlM
    (fun st _ => pyr_keys.foldlM (unpackStep zv pyr_tensor split_complex) st)
    ((0 : Nat), ([] : List (PyrKey × PT V)))
  Except.ok final.2

/-- A concrete real-valued non-downsampled coefficient dictionary
(1 scale, 2 orientations, both residuals, 1 channel). -/
def c8dict : List (PyrKey × PT Int) :=
  [(PyrKey.residual_highpass, ⟨false, (4, 4), [(1, 0)]⟩),
   (PyrKey.band 0 0, ⟨false, (4, 4), [(2, 0)]⟩),
   (PyrKey.band 0 1, ⟨false, (4, 4), [(3, 0)]⟩),
   (PyrKey.residual_lowpass, ⟨false, (4, 4), [(4, 0)]⟩)]

/-- The tensor `convert_pyr_to_tensor` packs `c8dict` into. -/
def c8tensor : PT Int := ⟨false, (4, 4), [(1, 0), (2, 0), (3, 0), (4, 0)]⟩

/-- C8 counterexample: for a real-valued non-downsampled pyramid
dictionary, packing with `split_complex=True` succeeds (real bands are
not split), but unpacking then consumes two channels per oriented band
and fails in `view_as_complex` instead of returning the dictionary: the
round trip does not hold for every `split_complex` flag. -/
theorem C8_counterexample :
    convert_pyr_to_tensor (0 : Int) c8dict true
        = Except.ok (c8tensor, (1, true, c8dict.map Prod.fst))
    ∧ convert_tensor_to_pyr (0 : Int) c8tensor 1 true (c8dict.map Prod.fst)
        = Except.error "view_as_complex: tensor must have a last dimension of size 2" :=
  ⟨rfl, rfl⟩

/-! #### Round-trip analysis of the codec -/

/-- The channel-`ch` content a key contributes to the packed tensor. -/
def chansAt (zv : V) (split : Bool) (ch : Nat) (kv : PyrKey × PT V) : List (V × V) :=
  if isResidual kv.1 then [kv.2.chans.getD ch (zv, zv)]
  else if kv.2.cplx && split then
    [((kv.2.chans.getD ch (zv, zv)).1, zv), ((kv.2.chans.getD ch (zv, zv)).2, zv)]
  else [kv.2.chans.getD ch (zv, zv)]

/-- The channel-`ch` slices a key contributes to the packed channel list. -/
def sliceList (zv : V) (split : Bool) (ch : Nat) (kv : PyrKey × PT V) : List (PT V) :=
  if isResidual kv.1 then [kv.2.sliceChans ch 1]
  else if kv.2.cplx && split then
    [(kv.2.sliceChans ch 1).realComp zv, (kv.2.sliceChans ch 1).imagComp zv]
  else [kv.2.sliceChans ch 1]

/-- The dictionary state of the unpacking loop after `n` full channels. -/
def dState (hw0 : Nat × Nat) (n : Nat) (d : List (PyrKey × PT V)) :
    List (PyrKey × PT V) :=
  d.map (fun kv => (kv.1, PT.mk kv.2.cplx hw0 (kv.2.chans.take n)))

/-- An optional residual part of a canonical dictionary. -/
def optPart (k : PyrKey) : Option (PT V) → List (PyrKey × PT V)
  | some v => [(k, v)]
  | none => []

/-- Well-formedness of one entry of a dictionary produced by `forward` on
a `downsample=False` pyramid: common spatial shape `hw0` and channel
count `C`; residuals real with `zv` imaginary content; oriented bands of
the common dtype `c` (also with `zv` imaginary content when real). -/
structure EntryWF (zv : V) (hw0 : Nat × Nat) (C : Nat) (c : Bool)
    (kv : PyrKey × PT V) : Prop where
  hw_eq : kv.2.hw = hw0
  len_eq : kv.2.chans.length = C
  resid_real : isResidual kv.1 = true → kv.2.cplx = false
  band_cplx : isResidual kv.1 = false → kv.2.cplx = c
  real_imag : kv.2.cplx = false → ∀ pr ∈ kv.2.chans, pr.2 = zv

theorem take_one_drop {X : Type} {l : List X} {i : Nat} (h : i < l.length) (dflt : X) :
    (l.drop i).take 1 = [l.getD i dflt] := by
  induction l generalizing i with
  | nil => simp at h
  | cons a rest ih =>
      cases i with
      | zero => simp [List.getD]
      | succ j =>
          simp only [List.drop_succ_cons]
          rw [ih (by simpa using h)]
          simp [List.getD]

theorem take_succ_getD {X : Type} {l : List X} {n : Nat} (h : n < l.length) (dflt : X) :
    l.take n ++ [l.getD n dflt] = l.take (n + 1) := by
  induction l generalizing n with
  | nil => simp at h
  | cons a rest ih =>
      cases n with
      | zero => simp [List.getD]
      | succ j =>
          simp only [List.take_succ_cons, List.cons_append]
          rw [show (a :: rest).getD (j + 1) dflt = rest.getD j dflt from rfl,
            ih (by simpa using h)]

theorem getD_mem {X : Type} {l : List X} {i : Nat} (h : i < l.length) (dflt : X) :
    l.getD i dflt ∈ l := by
  induction l generalizing i with
  | nil => simp at h
  | cons a rest ih =>
      cases i with
      | zero => simp [List.getD]
      | succ j =>
          exact List.mem_cons_of_mem _ (ih (by simpa using h))

theorem catChans_ok {hw0 : Nat × Nat} (ts : List (PT V)) (hne : ts ≠ [])
    (hhw : ∀ t ∈ ts, t.hw = hw0) :
    catChans ts = Except.ok ⟨ts.any (fun u => u.cplx), hw0,
      ts.flatMap (fun u => u.chans)⟩ := by
  cases ts with
  | nil => exact absurd rfl hne
  | cons t rest =>
      have hthw : t.hw = hw0 := hhw t (List.mem_cons_self _ _)
      rw [catChans, if_pos]
      · rw [hthw]
      · rw [List.all_eq_true]
        intro u hu
        rw [hhw u (List.mem_cons_of_mem _ hu), hthw]
        exact decide_eq_true rfl

theorem sliceChans_one {kv : PyrKey × PT V} {ch C : Nat} (hch : ch < C)
    (hlen : kv.2.chans.length = C) (zv : V) :
    kv.2.sliceChans ch 1 = ⟨kv.2.cplx, kv.2.hw, [kv.2.chans.getD ch (zv, zv)]⟩ := by
  unfold PT.sliceChans
  rw [take_one_drop (by omega) (zv, zv)]

theorem sliceList_chans (zv : V) (split : Bool) {ch C : Nat} (c : Bool) (hw0 : Nat × Nat)
    {kv : PyrKey × PT V} (hch : ch < C) (hwf : EntryWF zv hw0 C c kv) :
    (sliceList zv split ch kv).flatMap (fun t => t.chans) = chansAt zv split ch kv := by
  unfold sliceList chansAt
  rw [sliceChans_one hch hwf.len_eq zv]
  by_cases hres : isResidual kv.1
  · simp [hres]
  · simp only [hres, if_false, Bool.false_eq_true]
    by_cases hcs : kv.2.cplx && split
    · simp [hcs, PT.realComp, PT.imagComp]
    · simp [hcs]

theorem sliceList_hw (zv : V) (split : Bool) {ch C : Nat} (c : Bool) (hw0 : Nat × Nat)
    {kv : PyrKey × PT V} (hch : ch < C) (hwf : EntryWF zv hw0 C c kv) :
    ∀ t ∈ sliceList zv split ch kv, t.hw = hw0 := by
  intro t ht
  unfold sliceList at ht
  rw [sliceChans_one hch hwf.len_eq zv] at ht
  have hhw := hwf.hw_eq
  by_cases hres : isResidual kv.1
  · simp only [hres, if_true] at ht
    rcases List.mem_singleton.mp ht with rfl
    exact hhw
  · simp only [hres, if_false, Bool.false_eq_true] at ht
    by_cases hcs : kv.2.cplx && split
    · simp only [hcs, if_true] at ht
      rcases List.mem_cons.mp ht with rfl | ht'
      · exact hhw
      · rcases List.mem_singleton.mp ht' with rfl
        exact hhw
    · simp only [hcs, if_false] at ht
      rcases List.mem_singleton.mp ht with rfl
      exact hhw

theorem flatMap_congr {X Y : Type} {l : List X} {f g : X → List Y}
    (h : ∀ x ∈ l, f x = g x) : l.flatMap f = l.flatMap g := by
  induction l with
  | nil => rfl
  | cons a rest ih =>
      rw [List.flatMap_cons, List.flatMap_cons, h a (List.mem_cons_self _ _),
        ih (fun x hx => h x (List.mem_cons_of_mem _ hx))]

theorem isResidual_false_ne_rh {k : PyrKey} (h : isResidual k = false) :
    k ≠ PyrKey.residual_highpass := by
  intro he
  rw [he] at h
  cases h

theorem isResidual_false_ne_rl {k : PyrKey} (h : isResidual k = false) :
    k ≠ PyrKey.residual_lowpass := by
  intro he
  rw [he] at h
  cases h

/-- On a canonical dictionary (residual highpass first, oriented bands,
residual lowpass last) the residual re-insertion of the packing loop
reproduces the dictionary order: the channel block is just the per-key
slices in dictionary order. -/
theorem pack_channel_eq (zv : V) (split : Bool) (ch : Nat)
    (rhO rlO : Option (PT V)) (be : List (PyrKey × PT V))
    (hband : ∀ kv ∈ be, isResidual kv.1 = false) :
    packChannel zv
        (optPart PyrKey.residual_highpass rhO ++ be ++ optPart PyrKey.residual_lowpass rlO)
        split ch
      = (optPart PyrKey.residual_highpass rhO ++ be
          ++ optPart PyrKey.residual_lowpass rlO).flatMap (sliceList zv split ch) := by
  have hrhbe : PyrKey.residual_highpass ∉ be.map Prod.fst := by
    intro hmem
    obtain ⟨kv, hkv, hfst⟩ := List.mem_map.mp hmem
    have hb := hband kv hkv
    rw [hfst] at hb
    cases hb
  have hrlbe : PyrKey.residual_lowpass ∉ be.map Prod.fst := by
    intro hmem
    obtain ⟨kv, hkv, hfst⟩ := List.mem_map.mp hmem
    have hb := hband kv hkv
    rw [hfst] at hb
    cases hb
  have hbe_fm : be.filterMap (fun kv =>
      if isResidual kv.1 then some (kv.2.sliceChans ch 1) else none) = [] := by
    rw [List.filterMap_eq_nil]
    intro kv hkv
    rw [hband kv hkv]
    rfl
  have hbe_fl : be.flatMap (fun kv =>
        if isResidual kv.1 then []
        else
          let coeffs := kv.2.sliceChans ch 1
          if coeffs.cplx && split then [coeffs.realComp zv, coeffs.imagComp zv]
          else [coeffs])
      = be.flatMap (sliceList zv split ch) := by
    apply flatMap_congr
    intro kv hkv
    simp [sliceList, hband kv hkv, PT.sliceChans]
  cases rhO with
  | some vh =>
      cases rlO with
      | some vl =>
          rw [packChannel]
          simp only [optPart, List.map_append, List.map_cons, List.map_nil,
            List.filterMap_append, List.filterMap_cons, List.filterMap_nil,
            List.flatMap_append, List.flatMap_cons, List.flatMap_nil, hbe_fm, hbe_fl]
          rw [if_pos (by simp), if_pos (by simp)]
          simp [sliceList, isResidual]
      | none =>
          rw [packChannel]
          simp only [optPart, List.map_append, List.map_cons, List.map_nil,
            List.filterMap_append, List.filterMap_cons, List.filterMap_nil,
            List.flatMap_append, List.flatMap_cons, List.flatMap_nil, hbe_fm, hbe_fl]
          rw [if_pos (by simp), if_neg (by simp [hrlbe])]
          simp [sliceList, isResidual]
  | none =>
      cases rlO with
      | some vl =>
          rw [packChannel]
          simp only [optPart, List.map_append, List.map_cons, List.map_nil,
            List.filterMap_append, List.filterMap_cons, List.filterMap_nil,
            List.flatMap_append, List.flatMap_cons, List.flatMap_nil, hbe_fm, hbe_fl,
            List.nil_append]
          rw [if_neg (by simp [hrhbe]), if_pos (by simp)]
          simp [sliceList, isResidual]
      | none =>
          rw [packChannel]
          simp only [optPart, List.map_append, List.map_cons, List.map_nil,
            List.filterMap_append, List.filterMap_cons, List.filterMap_nil,
            List.flatMap_append, List.flatMap_cons, List.flatMap_nil, hbe_fm, hbe_fl,
            List.nil_append, List.append_nil]
          rw [if_neg (by simp [hrhbe]), if_neg (by simp [hrlbe])]

theorem flatMap_ne_nil {X Y : Type} {l : List X} {f : X → List Y} (hl : l ≠ [])
    (hf : ∀ x ∈ l, f x ≠ []) : l.flatMap f ≠ [] := by
  cases l with
  | nil => exact absurd rfl hl
  | cons a rest =>
      rw [List.flatMap_cons]
      intro hcontra
      rcases List.append_eq_nil.mp hcontra with ⟨h1, _⟩
      exact hf a (List.mem_cons_self _ _) h1

theorem sliceList_ne_nil (zv : V) (split : Bool) (ch : Nat) (kv : PyrKey × PT V) :
    sliceList zv split ch kv ≠ [] := by
  unfold sliceList
  by_cases hres : isResidual kv.1
  · simp [hres]
  · by_cases hcs : kv.2.cplx && split
    · simp [hres, hcs]
    · simp [hres, hcs]

/-- The dtype of the packed tensor. -/
def packedCplx (zv : V) (d : List (PyrKey × PT V)) (split : Bool) (C : Nat) : Bool :=
  ((List.range C).flatMap (packChannel zv d split)).any (fun u => u.cplx)

/-- What `convert_pyr_to_tensor` returns on a canonical well-formed
dictionary. -/
theorem pack_eq (zv : V) (split : Bool) (hw0 : Nat × Nat) {C : Nat} (hC : 0 < C)
    (c : Bool) (rhO rlO : Option (PT V)) (be d : List (PyrKey × PT V))
    (hd : d = optPart PyrKey.residual_highpass rhO ++ be
        ++ optPart PyrKey.residual_lowpass rlO)
    (hne : d ≠ [])
    (hband : ∀ kv ∈ be, isResidual kv.1 = false)
    (hwf : ∀ kv ∈ d, EntryWF zv hw0 C c kv) :
    convert_pyr_to_tensor zv d split
      = Except.ok (⟨packedCplx zv d split C, hw0,
          (List.range C).flatMap (fun ch => d.flatMap (chansAt zv split ch))⟩,
        (C, split, d.map Prod.fst)) := by
  have hblock : ∀ ch, packChannel zv d split ch = d.flatMap (sliceList zv split ch) := by
    intro ch
    rw [hd]
    exact pack_channel_eq zv split ch rhO rlO be hband
  have hfirstlen : ∀ first rest, d = first :: rest → first.2.chans.length = C := by
    intro first rest hfr
    exact (hwf first (hfr ▸ List.mem_cons_self _ _)).len_eq
  have hcoeff_ne : (List.range C).flatMap (packChannel zv d split) ≠ [] := by
    apply flatMap_ne_nil
    · intro hcontra
      have := congrArg List.length hcontra
      simp only [List.length_range, List.length_nil] at this
      omega
    · intro ch _
      rw [hblock ch]
      exact flatMap_ne_nil hne (fun kv _ => sliceList_ne_nil zv split ch kv)
  have hcoeff_hw : ∀ t ∈ (List.range C).flatMap (packChannel zv d split), t.hw = hw0 := by
    intro t ht
    obtain ⟨ch, hch, htch⟩ := List.mem_flatMap.mp ht
    rw [hblock ch] at htch
    obtain ⟨kv, hkv, htkv⟩ := List.mem_flatMap.mp htch
    exact sliceList_hw zv split c hw0 (List.mem_range.mp hch) (hwf kv hkv) t htkv
  have hflatten : ((List.range C).flatMap (packChannel zv d split)).flatMap
      (fun u => u.chans)
      = (List.range C).flatMap (fun ch => d.flatMap (chansAt zv split ch)) := by
    rw [List.flatMap_assoc]
    apply flatMap_congr
    intro ch hch
    rw [hblock ch, List.flatMap_assoc]
    apply flatMap_congr
    intro kv hkv
    exact sliceList_chans zv split c hw0 (List.mem_range.mp hch) (hwf kv hkv)
  cases hdc : d with
  | nil => exact absurd hdc hne
  | cons first rest =>
      have hlen := hfirstlen first rest hdc
      subst hdc
      rw [convert_pyr_to_tensor.eq_def]
      dsimp only
      rw [hlen, catChans_ok _ hcoeff_ne hcoeff_hw, hflatten]
      rfl

theorem mem_packed_slices {zv : V} {split : Bool} {C : Nat}
    {rhO rlO : Option (PT V)} {be d : List (PyrKey × PT V)}
    (hd : d = optPart PyrKey.residual_highpass rhO ++ be
        ++ optPart PyrKey.residual_lowpass rlO)
    (hband : ∀ kv ∈ be, isResidual kv.1 = false) {t : PT V}
    (ht : t ∈ (List.range C).flatMap (packChannel zv d split)) :
    ∃ ch < C, ∃ kv ∈ d, t ∈ sliceList zv split ch kv := by
  obtain ⟨ch, hch, htch⟩ := List.mem_flatMap.mp ht
  rw [hd, pack_channel_eq zv split ch rhO rlO be hband] at htch
  obtain ⟨kv, hkv, htkv⟩ := List.mem_flatMap.mp htch
  exact ⟨ch, List.mem_range.mp hch, kv, hd ▸ hkv, htkv⟩

theorem optPart_residual {k : PyrKey} {o : Option (PT V)} {kv : PyrKey × PT V}
    (hk : isResidual k = true) (hkv : kv ∈ optPart k o) : isResidual kv.1 = true := by
  cases o with
  | none => cases hkv
  | some v =>
      rcases List.mem_singleton.mp hkv with rfl
      exact hk

theorem band_mem_be {rhO rlO : Option (PT V)} {be d : List (PyrKey × PT V)}
    (hd : d = optPart PyrKey.residual_highpass rhO ++ be
        ++ optPart PyrKey.residual_lowpass rlO)
    {kv : PyrKey × PT V} (hkv : kv ∈ d) (hres : isResidual kv.1 = false) : kv ∈ be := by
  rw [hd] at hkv
  rcases List.mem_append.mp hkv with h1 | h2
  · rcases List.mem_append.mp h1 with hh | hb
    · exact absurd (optPart_residual (k := PyrKey.residual_highpass) rfl hh)
        (by rw [hres]; intro hc; cases hc)
    · exact hb
  · exact absurd (optPart_residual (k := PyrKey.residual_lowpass) rfl h2)
      (by rw [hres]; intro hc; cases hc)

/-- With `split_complex=True` every packed slice is real-valued (complex
bands are split into real/imag components). -/
theorem packedCplx_of_split_true (zv : V) {split : Bool} (hw0 : Nat × Nat) {C : Nat}
    (c : Bool) {rhO rlO : Option (PT V)} {be d : List (PyrKey × PT V)}
    (hd : d = optPart PyrKey.residual_highpass rhO ++ be
        ++ optPart PyrKey.residual_lowpass rlO)
    (hband : ∀ kv ∈ be, isResidual kv.1 = false)
    (hwf : ∀ kv ∈ d, EntryWF zv hw0 C c kv)
    (hsplit : split = true) (hcs : c = true) :
    packedCplx zv d split C = false := by
  unfold packedCplx
  rw [List.any_eq_false]
  intro t ht
  obtain ⟨ch, hch, kv, hkv, htkv⟩ := mem_packed_slices hd hband ht
  have hwfkv := hwf kv hkv
  unfold sliceList at htkv
  by_cases hres : isResidual kv.1
  · rw [if_pos hres] at htkv
    rcases List.mem_singleton.mp htkv with rfl
    simp [PT.sliceChans, hwfkv.resid_real hres]
  · have hcplx : kv.2.cplx = c := hwfkv.band_cplx (by simpa using hres)
    have hcs2 : (kv.2.sliceChans ch 1).cplx && split = true := by
      simp [PT.sliceChans, hcplx, hcs, hsplit]
    simp only [hres, if_false, Bool.false_eq_true] at htkv
    rw [if_pos (by simpa [PT.sliceChans] using hcs2)] at htkv
    rcases List.mem_cons.mp htkv with rfl | htkv'
    · simp [PT.realComp]
    · rcases List.mem_singleton.mp htkv' with rfl
      simp [PT.imagComp]

/-- With `split_complex=False` the packed tensor has the common band
dtype whenever an oriented band is present. -/
theorem packedCplx_of_split_false (zv : V) {split : Bool} (hw0 : Nat × Nat) {C : Nat}
    (hC : 0 < C) (c : Bool) {rhO rlO : Option (PT V)} {be d : List (PyrKey × PT V)}
    (hd : d = optPart PyrKey.residual_highpass rhO ++ be
        ++ optPart PyrKey.residual_lowpass rlO)
    (hband : ∀ kv ∈ be, isResidual kv.1 = false)
    (hwf : ∀ kv ∈ d, EntryWF zv hw0 C c kv)
    (hsplit : split = false) (hbe : be ≠ []) :
    packedCplx zv d split C = c := by
  cases hc : c with
  | false =>
      unfold packedCplx
      rw [List.any_eq_false]
      intro t ht
      obtain ⟨ch, hch, kv, hkv, htkv⟩ := mem_packed_slices hd hband ht
      have hwfkv := hwf kv hkv
      have hcplx : kv.2.cplx = false := by
        by_cases hres : isResidual kv.1
        · exact hwfkv.resid_real hres
        · exact hc ▸ hwfkv.band_cplx (by simpa using hres)
      unfold sliceList at htkv
      by_cases hres : isResidual kv.1
      · rw [if_pos hres] at htkv
        rcases List.mem_singleton.mp htkv with rfl
        simp [PT.sliceChans, hcplx]
      · simp only [hres, if_false, Bool.false_eq_true] at htkv
        rw [if_neg (by simp [PT.sliceChans, hcplx, hsplit])] at htkv
        rcases List.mem_singleton.mp htkv with rfl
        simp [PT.sliceChans, hcplx]
  | true =>
      unfold packedCplx
      rw [List.any_eq_true]
      cases hbec : be with
      | nil => exact absurd hbec hbe
      | cons kv0 berest =>
          have hkv0be : kv0 ∈ be := hbec ▸ List.mem_cons_self _ _
          have hkv0d : kv0 ∈ d := by
            rw [hd]
            exact List.mem_append.mpr (Or.inl (List.mem_append.mpr (Or.inr hkv0be)))
          have hres0 := hband kv0 hkv0be
          have hcplx0 : kv0.2.cplx = c := (hwf kv0 hkv0d).band_cplx hres0
          refine ⟨kv0.2.sliceChans 0 1, ?_, ?_⟩
          · apply List.mem_flatMap.mpr
            refine ⟨0, List.mem_range.mpr hC, ?_⟩
            rw [hd, pack_channel_eq zv split 0 rhO rlO be hband, ← hd]
            apply List.mem_flatMap.mpr
            refine ⟨kv0, hkv0d, ?_⟩
            unfold sliceList
            rw [if_neg (by rw [hres0]; intro hcon; cases hcon),
              if_neg (by simp [PT.sliceChans, hsplit])]
            exact List.mem_singleton.mpr rfl
          · simp [PT.sliceChans, hcplx0, hc]

theorem edo_map {X Y : Type} (e : Except String X) (f : X → Y) :
    (e >>= fun x => Except.ok (f x)) = Except.map f e := by
  cases e <;> rfl

theorem dictAssign_append {α β : Type} [DecidableEq α] {A : List (α × β)} {k : α}
    (hA : k ∉ A.map Prod.fst) (old v : β) (B : List (α × β)) :
    dictAssign (A ++ (k, old) :: B) k v = A ++ (k, v) :: B := by
  induction A with
  | nil => simp [dictAssign]
  | cons a arest ih =>
      rw [List.map_cons] at hA
      have hne : a.1 ≠ k := fun he => hA (he ▸ List.mem_cons_self _ _)
      have hA' : k ∉ arest.map Prod.fst := fun hm => hA (List.mem_cons_of_mem _ hm)
      simp only [List.cons_append, dictAssign, if_neg hne, List.append_eq]
      rw [ih hA']

theorem dictGet_not_mem {α β : Type} [DecidableEq α] {A : List (α × β)} {k : α}
    (hA : k ∉ A.map Prod.fst) : dictGet A k = none :=
  dictGet_eq_none (fun kv hkv he => hA (List.mem_map.mpr ⟨kv, hkv, he⟩))

theorem dictGet_middle {α β : Type} [DecidableEq α] {A : List (α × β)} {k : α}
    (hA : k ∉ A.map Prod.fst) (old : β) (B : List (α × β)) :
    dictGet (A ++ (k, old) :: B) k = some old := by
  rw [dictGet_append_none _ (dictGet_not_mem hA), dictGet_cons_self]

theorem drop_block {X : Type} {l block tail : List X} {i : Nat}
    (h : l.drop i = block ++ tail) : l.drop (i + block.length) = tail := by
  have h2 : (l.drop i).drop block.length = tail := by rw [h, List.drop_left]
  rw [List.drop_drop] at h2
  exact h2

/-- One unpacking step consumes exactly the channel-`ch` contribution of
the key and assigns the key's channel-`ch` slice (with the key's own
dtype) into the dictionary. -/
theorem unpackStep_eq {zv : V} {split c : Bool} {hw0 : Nat × Nat} {C : Nat}
    {packed : PT V} (hphw : packed.hw = hw0)
    {kv : PyrKey × PT V} {ch : Nat} (hch : ch < C)
    (hwf : EntryWF zv hw0 C c kv)
    (hpc_band : split = false → isResidual kv.1 = false → packed.cplx = c)
    (hpc_split : split = true → packed.cplx = false)
    (hcsplit : split = true → c = true)
    (i : Nat) (dict : List (PyrKey × PT V)) (tail : List (V × V))
    (halign : packed.chans.drop i = chansAt zv split ch kv ++ tail) :
    unpackStep zv packed split (i, dict) kv.1
      = Except.map (fun d' => (i + (chansAt zv split ch kv).length, d'))
          (dictUpdate dict kv.1 ⟨kv.2.cplx, hw0, [kv.2.chans.getD ch (zv, zv)]⟩) := by
  have hlen : ch < kv.2.chans.length := by rw [hwf.len_eq]; exact hch
  have hg2 : kv.2.cplx = false → (kv.2.chans.getD ch (zv, zv)).2 = zv :=
    fun hcf => hwf.real_imag hcf _ (getD_mem hlen _)
  by_cases hres : isResidual kv.1
  · -- residual: one real channel, cast to float
    have hcf : kv.2.cplx = false := hwf.resid_real hres
    have hca : chansAt zv split ch kv = [kv.2.chans.getD ch (zv, zv)] := by
      unfold chansAt
      rw [if_pos hres]
    rw [hca] at halign
    have hchanAt : packed.chanAt i
        = Except.ok ⟨packed.cplx, packed.hw, [kv.2.chans.getD ch (zv, zv)]⟩ := by
      unfold PT.chanAt
      rw [halign]
      rfl
    have hband : (PT.mk packed.cplx packed.hw
          [kv.2.chans.getD ch (zv, zv)]).toFloat zv
        = ⟨kv.2.cplx, hw0, [kv.2.chans.getD ch (zv, zv)]⟩ := by
      unfold PT.toFloat
      rw [hcf]
      simp only [List.map_cons, List.map_nil, hphw]
      set g := kv.2.chans.getD ch (zv, zv) with hgdef
      rw [← hg2 hcf]
    unfold unpackStep
    rw [if_pos hres]
    show (packed.chanAt i >>= fun band =>
        dictUpdate dict kv.1 (band.toFloat zv) >>= fun d =>
          Except.ok (i + 1, d)) = _
    rw [hchanAt, ebind_ok, hband, edo_map, hca]
    rfl
  · have hbc : kv.2.cplx = c := hwf.band_cplx (by simpa using hres)
    by_cases hsp : split = true
    · -- split complex: two real channels recombined by view_as_complex
      have hct : kv.2.cplx = true := by rw [hbc, hcsplit hsp]
      have hca : chansAt zv split ch kv
          = [((kv.2.chans.getD ch (zv, zv)).1, zv),
             ((kv.2.chans.getD ch (zv, zv)).2, zv)] := by
        unfold chansAt
        rw [if_neg hres, if_pos (by rw [hct, hsp]; rfl)]
      rw [hca] at halign
      have hslice : packed.sliceChans i 2
          = ⟨packed.cplx, packed.hw,
              [((kv.2.chans.getD ch (zv, zv)).1, zv),
               ((kv.2.chans.getD ch (zv, zv)).2, zv)]⟩ := by
        unfold PT.sliceChans
        rw [halign]
        rfl
      have hview : viewAsComplex (packed.sliceChans i 2)
          = Except.ok ⟨true, packed.hw, [kv.2.chans.getD ch (zv, zv)]⟩ := by
        rw [hslice]
        unfold viewAsComplex
        rw [show packed.cplx = false from hpc_split hsp]
        rfl
      unfold unpackStep
      rw [if_neg hres, if_pos hsp]
      show (viewAsComplex (packed.sliceChans i 2) >>= fun band =>
          dictUpdate dict kv.1 band >>= fun d => Except.ok (i + 2, d)) = _
      rw [hview, ebind_ok, edo_map, hca, hphw, hct]
      rfl
    · -- unsplit band: one channel with the packed dtype
      have hspf : split = false := by
        cases hb : split
        · rfl
        · exact absurd hb hsp
      have hca : chansAt zv split ch kv = [kv.2.chans.getD ch (zv, zv)] := by
        unfold chansAt
        rw [if_neg hres, if_neg (by rw [hspf]; simp)]
      rw [hca] at halign
      have hchanAt : packed.chanAt i
          = Except.ok ⟨packed.cplx, packed.hw, [kv.2.chans.getD ch (zv, zv)]⟩ := by
        unfold PT.chanAt
        rw [halign]
        rfl
      unfold unpackStep
      rw [if_neg hres, if_neg hsp]
      show (packed.chanAt i >>= fun band =>
          dictUpdate dict kv.1 band >>= fun d => Except.ok (i + 1, d)) = _
      rw [hchanAt, ebind_ok, edo_map, hca, hphw,
        show packed.cplx = c from hpc_band hspf (by simpa using hres), hbc]
      rfl

theorem map_ok {X Y : Type} (f : X → Y) (x : X) :
    Except.map f (Except.ok x : Except String X) = Except.ok (f x) := rfl

/-- Inserting an absent key appends it. -/
theorem dictUpdate_not_mem {d : List (PyrKey × PT V)} {k : PyrKey}
    (h : k ∉ d.map Prod.fst) (band : PT V) :
    dictUpdate d k band = Except.ok (d ++ [(k, band)]) := by
  unfold dictUpdate
  rw [dictGet_not_mem h]

/-- Updating a present key concatenates the new slice onto the stored
channels (the `torch.cat` branch). -/
theorem dictUpdate_middle {A : List (PyrKey × PT V)} {k : PyrKey}
    (hA : k ∉ A.map Prod.fst) (c0 : Bool) (hw0 : Nat × Nat)
    (oldc newc : List (V × V)) (B : List (PyrKey × PT V)) :
    dictUpdate (A ++ (k, PT.mk c0 hw0 oldc) :: B) k (PT.mk c0 hw0 newc)
      = Except.ok (A ++ (k, PT.mk c0 hw0 (oldc ++ newc)) :: B) := by
  unfold dictUpdate
  rw [dictGet_middle hA]
  show Except.map _ (catChans [PT.mk c0 hw0 oldc, PT.mk c0 hw0 newc]) = _
  rw [catChans_ok [PT.mk c0 hw0 oldc, PT.mk c0 hw0 newc] (by simp)
    (show ∀ t ∈ [PT.mk c0 hw0 oldc, PT.mk c0 hw0 newc], t.hw = hw0 by simp), map_ok]
  congr 1
  have h1 : ([PT.mk c0 hw0 oldc, PT.mk c0 hw0 newc].any fun u => u.cplx) = c0 := by
    simp
  have h2 : ([PT.mk c0 hw0 oldc, PT.mk c0 hw0 newc].flatMap fun u => u.chans)
      = oldc ++ newc := by simp
  rw [h1, h2]
  exact dictAssign_append hA _ _ B

/-- First channel of unpacking: every key is inserted with its channel-0
slice. -/
theorem unpack_chainA {zv : V} {split c : Bool} {hw0 : Nat × Nat} {C : Nat}
    {packed : PT V} (hphw : packed.hw = hw0) (hC : 0 < C)
    (hcsplit : split = true → c = true)
    (hpc_split : split = true → packed.cplx = false)
    (suffix : List (PyrKey × PT V)) :
    ∀ (i : Nat) (done : List (PyrKey × PT V)) (tail : List (V × V)),
      (∀ kv ∈ suffix, EntryWF zv hw0 C c kv) →
      (suffix.map Prod.fst).Nodup →
      (∀ kv ∈ suffix, kv.1 ∉ done.map Prod.fst) →
      (∀ kv ∈ suffix, split = false → isResidual kv.1 = false → packed.cplx = c) →
      packed.chans.drop i = suffix.flatMap (chansAt zv split 0) ++ tail →
      (suffix.map Prod.fst).foldlM (unpackStep zv packed split) (i, done)
        = Except.ok (i + (suffix.flatMap (chansAt zv split 0)).length,
            done ++ dState hw0 1 suffix) := by
  induction suffix with
  | nil =>
      intro i done tail _ _ _ _ _
      simp only [List.map_nil, List.foldlM_nil, List.flatMap_nil, List.length_nil,
        Nat.add_zero, dState, List.append_nil]
      rfl
  | cons kv rest ih =>
      intro i done tail hwf hnd hdisj hpcb halign
      have hmem : kv ∈ kv :: rest := List.mem_cons_self _ _
      have hndc : (kv.1 :: rest.map Prod.fst).Nodup := by simpa using hnd
      have hhead : kv.1 ∉ rest.map Prod.fst := (List.nodup_cons.mp hndc).1
      have hndr : (rest.map Prod.fst).Nodup := (List.nodup_cons.mp hndc).2
      rw [List.flatMap_cons, List.append_assoc] at halign
      rw [List.map_cons, List.foldlM_cons,
        unpackStep_eq hphw hC (hwf kv hmem) (hpcb kv hmem) hpc_split hcsplit i done _ halign,
        dictUpdate_not_mem (hdisj kv hmem), map_ok, ebind_ok]
      have hlenkv : kv.2.chans.length = C := (hwf kv hmem).len_eq
      have htake1 : kv.2.chans.take 1 = [kv.2.chans.getD 0 (zv, zv)] := by
        have h0 : (0 : Nat) < kv.2.chans.length := by omega
        have := take_one_drop h0 (zv, zv)
        simpa using this
      have hdisj' : ∀ kv' ∈ rest, kv'.1 ∉
          (done ++ [(kv.1, PT.mk kv.2.cplx hw0 [kv.2.chans.getD 0 (zv, zv)])]).map
            Prod.fst := by
        intro kv' hkv' hmem'
        rw [List.map_append] at hmem'
        rcases List.mem_append.mp hmem' with h1 | h2
        · exact hdisj kv' (List.mem_cons_of_mem _ hkv') h1
        · have he : kv'.1 = kv.1 := by simpa using h2
          exact hhead (he ▸ List.mem_map.mpr ⟨kv', hkv', rfl⟩)
      rw [ih (i + (chansAt zv split 0 kv).length)
        (done ++ [(kv.1, PT.mk kv.2.cplx hw0 [kv.2.chans.getD 0 (zv, zv)])]) tail
        (fun kv' h => hwf kv' (List.mem_cons_of_mem _ h))
        hndr
        hdisj'
        (fun kv' h => hpcb kv' (List.mem_cons_of_mem _ h))
        (drop_block halign)]
      rw [List.flatMap_cons, List.length_append]
      simp only [dState, List.map_cons]
      rw [htake1]
      simp only [List.append_assoc, List.singleton_append, Nat.add_assoc]

/-- Channel `ch ≥ 1` of unpacking: every key's stored entry is extended
with its channel-`ch` slice by the `torch.cat` branch. -/
theorem unpack_chainB {zv : V} {split c : Bool} {hw0 : Nat × Nat} {C : Nat}
    {packed : PT V} (hphw : packed.hw = hw0) {ch : Nat} (hch : ch < C)
    (hcsplit : split = true → c = true)
    (hpc_split : split = true → packed.cplx = false)
    (suffix : List (PyrKey × PT V)) :
    ∀ (i : Nat) (done : List (PyrKey × PT V)) (tail : List (V × V)),
      (∀ kv ∈ suffix, EntryWF zv hw0 C c kv) →
      (suffix.map Prod.fst).Nodup →
      (∀ kv ∈ suffix, kv.1 ∉ done.map Prod.fst) →
      (∀ kv ∈ suffix, split = false → isResidual kv.1 = false → packed.cplx = c) →
      packed.chans.drop i = suffix.flatMap (chansAt zv split ch) ++ tail →
      (suffix.map Prod.fst).foldlM (unpackStep zv packed split)
          (i, done ++ dState hw0 ch suffix)
        = Except.ok (i + (suffix.flatMap (chansAt zv split ch)).length,
            done ++ dState hw0 (ch + 1) suffix) := by
  induction suffix with
  | nil =>
      intro i done tail _ _ _ _ _
      simp only [List.map_nil, List.foldlM_nil, List.flatMap_nil, List.length_nil,
        Nat.add_zero, dState, List.append_nil]
      rfl
  | cons kv rest ih =>
      intro i done tail hwf hnd hdisj hpcb halign
      have hmem : kv ∈ kv :: rest := List.mem_cons_self _ _
      have hndc : (kv.1 :: rest.map Prod.fst).Nodup := by simpa using hnd
      have hhead : kv.1 ∉ rest.map Prod.fst := (List.nodup_cons.mp hndc).1
      have hndr : (rest.map Prod.fst).Nodup := (List.nodup_cons.mp hndc).2
      have hlenkv : kv.2.chans.length = C := (hwf kv hmem).len_eq
      have hlt : ch < kv.2.chans.length := by rw [hlenkv]; exact hch
      rw [List.flatMap_cons, List.append_assoc] at halign
      have hstate : done ++ dState hw0 ch (kv :: rest)
          = done ++ (kv.1, PT.mk kv.2.cplx hw0 (kv.2.chans.take ch))
              :: dState hw0 ch rest := by
        simp only [dState, List.map_cons]
      rw [List.map_cons, List.foldlM_cons, hstate,
        unpackStep_eq hphw hch (hwf kv hmem) (hpcb kv hmem) hpc_split hcsplit i _ _ halign,
        dictUpdate_middle (hdisj kv hmem) kv.2.cplx hw0 (kv.2.chans.take ch)
          [kv.2.chans.getD ch (zv, zv)] (dState hw0 ch rest),
        map_ok, ebind_ok, take_succ_getD hlt (zv, zv), List.append_cons]
      have hdisj' : ∀ kv' ∈ rest, kv'.1 ∉
          (done ++ [(kv.1, PT.mk kv.2.cplx hw0 (kv.2.chans.take (ch + 1)))]).map
            Prod.fst := by
        intro kv' hkv' hmem'
        rw [List.map_append] at hmem'
        rcases List.mem_append.mp hmem' with h1 | h2
        · exact hdisj kv' (List.mem_cons_of_mem _ hkv') h1
        · have he : kv'.1 = kv.1 := by simpa using h2
          exact hhead (he ▸ List.mem_map.mpr ⟨kv', hkv', rfl⟩)
      rw [ih (i + (chansAt zv split ch kv).length)
        (done ++ [(kv.1, PT.mk kv.2.cplx hw0 (kv.2.chans.take (ch + 1)))]) tail
        (fun kv' h => hwf kv' (List.mem_cons_of_mem _ h))
        hndr
        hdisj'
        (fun kv' h => hpcb kv' (List.mem_cons_of_mem _ h))
        (drop_block halign)]
      rw [List.flatMap_cons, List.length_append]
      simp only [dState, List.map_cons]
      simp only [List.append_assoc, List.singleton_append, Nat.add_assoc]

/-- Channels `k, k+1, …, C-1` of the unpacking loop, `k ≥ 1`. -/
theorem unpack_outerB {zv : V} {split c : Bool} {hw0 : Nat × Nat} {C : Nat}
    {packed : PT V} {d : List (PyrKey × PT V)} (hphw : packed.hw = hw0)
    (hcsplit : split = true → c = true)
    (hpc_split : split = true → packed.cplx = false)
    (hwf : ∀ kv ∈ d, EntryWF zv hw0 C c kv)
    (hnd : (d.map Prod.fst).Nodup)
    (hpcb : ∀ kv ∈ d, split = false → isResidual kv.1 = false → packed.cplx = c)
    (n : Nat) :
    ∀ (k i : Nat), k + n = C → 1 ≤ k →
      packed.chans.drop i
        = (List.range' k n).flatMap (fun ch => d.flatMap (chansAt zv split ch)) →
      (List.range' k n).foldlM
          (fun st _ => (d.map Prod.fst).foldlM (unpackStep zv packed split) st)
          (i, dState hw0 k d)
        = Except.ok
            (i + ((List.range' k n).flatMap
                (fun ch => d.flatMap (chansAt zv split ch))).length,
              dState hw0 (k + n) d) := by
  induction n with
  | zero =>
      intro k i _ _ _
      simp only [show ∀ s, List.range' s 0 = [] from fun _ => rfl, List.foldlM_nil,
        List.flatMap_nil, List.length_nil, Nat.add_zero]
      rfl
  | succ m ih =>
      intro k i hkn hk1 halign
      have hkC : k < C := by omega
      rw [List.range'_succ, List.flatMap_cons] at halign
      rw [List.range'_succ, List.foldlM_cons]
      have hchain := unpack_chainB hphw hkC hcsplit hpc_split d i []
        ((List.range' (k + 1) m).flatMap (fun ch => d.flatMap (chansAt zv split ch)))
        hwf hnd (fun kv _ h => List.not_mem_nil _ h) hpcb halign
      simp only [List.nil_append] at hchain
      rw [hchain, ebind_ok]
      rw [ih (k + 1) (i + (d.flatMap (chansAt zv split k)).length)
        (by omega) (by omega) (drop_block halign)]
      have h1 : k + 1 + m = k + (m + 1) := by omega
      rw [h1, List.flatMap_cons, List.length_append, Nat.add_assoc]

/-- After all `C` channels every entry has recovered its full channel
list. -/
theorem dState_full {zv : V} {hw0 : Nat × Nat} {C : Nat} {c : Bool}
    {d : List (PyrKey × PT V)} (hwf : ∀ kv ∈ d, EntryWF zv hw0 C c kv) :
    dState hw0 C d = d := by
  induction d with
  | nil => rfl
  | cons kv rest ih =>
      simp only [dState, List.map_cons]
      have h1 := hwf kv (List.mem_cons_self _ _)
      have htake : kv.2.chans.take C = kv.2.chans := by
        rw [← h1.len_eq]
        exact List.take_length _
      congr 1
      · rw [htake, ← h1.hw_eq]
      · exact ih (fun kv' h => hwf kv' (List.mem_cons_of_mem _ h))

/-- What `convert_tensor_to_pyr` returns on the tensor packed from a
well-formed dictionary. -/
theorem unpack_eq (zv : V) (split : Bool) (hw0 : Nat × Nat) {C : Nat} (hC : 0 < C)
    (c : Bool) {packed : PT V} {d : List (PyrKey × PT V)}
    (hphw : packed.hw = hw0)
    (hchans : packed.chans
      = (List.range C).flatMap (fun ch => d.flatMap (chansAt zv split ch)))
    (hcsplit : split = true → c = true)
    (hpc_split : split = true → packed.cplx = false)
    (hpcb : ∀ kv ∈ d, split = false → isResidual kv.1 = false → packed.cplx = c)
    (hwf : ∀ kv ∈ d, EntryWF zv hw0 C c kv)
    (hnd : (d.map Prod.fst).Nodup) :
    convert_tensor_to_pyr zv packed C split (d.map Prod.fst) = Except.ok d := by
  obtain ⟨K, rfl⟩ : ∃ K, C = K + 1 := ⟨C - 1, by omega⟩
  unfold convert_tensor_to_pyr
  have hrange : List.range (K + 1) = 0 :: List.range' 1 K := by
    rw [List.range_eq_range', List.range'_succ]
  rw [hrange, List.foldlM_cons]
  have halign0 : packed.chans.drop 0 = d.flatMap (chansAt zv split 0)
      ++ (List.range' 1 K).flatMap (fun ch => d.flatMap (chansAt zv split ch)) := by
    rw [List.drop_zero, hchans, hrange, List.flatMap_cons]
  have hA := unpack_chainA hphw hC hcsplit hpc_split d 0 []
      ((List.range' 1 K).flatMap (fun ch => d.flatMap (chansAt zv split ch)))
      hwf hnd (fun kv _ h => List.not_mem_nil _ h) hpcb halign0
  simp only [List.nil_append, Nat.zero_add] at hA
  rw [hA, ebind_ok]
  have halign1 : packed.chans.drop (d.flatMap (chansAt zv split 0)).length
      = (List.range' 1 K).flatMap (fun ch => d.flatMap (chansAt zv split ch)) := by
    have := drop_block halign0
    simpa using this
  rw [unpack_outerB hphw hcsplit hpc_split hwf hnd hpcb K 1
      (d.flatMap (chansAt zv split 0)).length (by omega) (by omega) halign1,
    ebind_ok]
  have h1K : 1 + K = K + 1 := by omega
  rw [h1K, dState_full hwf]

/-- C8 (amended form): under the dtype compatibility condition
`split_complex=True → complex bands`, the codec round trip is exact. -/
theorem C8_roundtrip_amended (zv : V) (split c : Bool) (hw0 : Nat × Nat) {C : Nat}
    (hC : 0 < C) (rhO rlO : Option (PT V)) (be d : List (PyrKey × PT V))
    (hd : d = optPart PyrKey.residual_highpass rhO ++ be
        ++ optPart PyrKey.residual_lowpass rlO)
    (hne : d ≠ [])
    (hband : ∀ kv ∈ be, isResidual kv.1 = false)
    (hwf : ∀ kv ∈ d, EntryWF zv hw0 C c kv)
    (hnd : (d.map Prod.fst).Nodup)
    (hcsplit : split = true → c = true) :
    ∃ t : PT V,
      convert_pyr_to_tensor zv d split
          = Except.ok (t, (C, split, d.map Prod.fst))
      ∧ convert_tensor_to_pyr zv t C split (d.map Prod.fst) = Except.ok d := by
  refine ⟨⟨packedCplx zv d split C, hw0,
    (List.range C).flatMap (fun ch => d.flatMap (chansAt zv split ch))⟩, ?_, ?_⟩
  · exact pack_eq zv split hw0 hC c rhO rlO be d hd hne hband hwf
  · apply unpack_eq zv split hw0 hC c rfl rfl hcsplit
    · intro hs
      exact packedCplx_of_split_true zv hw0 c hd hband hwf hs (hcsplit hs)
    · intro kv hkv hspf hres
      have hbe_ne : be ≠ [] := List.ne_nil_of_mem (band_mem_be hd hkv hres)
      exact packedCplx_of_split_false zv hw0 hC c hd hband hwf hspf hbe_ne
    · exact hwf
    · exact hnd

theorem C8_roundtrip_amended_witness :
    ∃ t : PT Int,
      convert_pyr_to_tensor (0 : Int) c8dict false
          = Except.ok (t, (1, false, c8dict.map Prod.fst))
      ∧ convert_tensor_to_pyr (0 : Int) t 1 false (c8dict.map Prod.fst)
          = Except.ok c8dict :=
  C8_roundtrip_amended (0 : Int) false false (4, 4) (by decide)
    (some ⟨false, (4, 4), [(1, 0)]⟩) (some ⟨false, (4, 4), [(4, 0)]⟩)
    [(PyrKey.band 0 0, ⟨false, (4, 4), [(2, 0)]⟩),
     (PyrKey.band 0 1, ⟨false, (4, 4), [(3, 0)]⟩)]
    c8dict rfl (by decide) (by decide)
    (by
      intro kv hkv
      simp only [c8dict, List.mem_cons, List.not_mem_nil, or_false] at hkv
      rcases hkv with rfl | rfl | rfl | rfl <;>
        exact ⟨rfl, rfl, fun _ => rfl, fun _ => rfl,
          fun _ pr hpr => by rcases List.mem_singleton.mp hpr with rfl; rfl⟩)
    (by decide)
    (fun h => h)

/-! #### Steering (`steer_coeffs`) -/

/-- `Steerable_Pyramid_Freq.steer_coeffs` (source lines 838-881).  The
tensor-level operations of `tools.signal` are abstracted: `steer`
returns the pair `(res, steervect)` of re-steered response and steering
weights, `reshape` is `res.reshape(pyr_coeffs[(i, 0)].shape)`, and
`catBasis` is the `torch.cat` of the squeezed/unsqueezed orientation
bands.  Key placement and dictionary assignment follow the source
exactly: for scale `i` and angle index `j`,
`resteering_weights[(i, j)] = steervect` (line 877) and
`resteered_coeffs[(i, num_orientations + j)] = res.reshape(...)`
(line 878). -/
def steer_coeffs {A : Type} (steer : PT V → A → Bool → PT V × PT V)
    (reshape : PT V → PT V → PT V) (catBasis : List (PT V) → PT V)
    (num_scales num_orientations : Nat)
    (pyr_coeffs : List ((Nat × Nat) × PT V)) (angles : List A)
    (even_phase : Bool) :
    Except String (List ((Nat × Nat) × PT V) × List ((Nat × Nat) × PT V)) := do
  let t00 ← match dictGet pyr_coeffs (0, 0) with
    | some t => Except.ok t
    | none => Except.error "KeyError: (0, 0)"
  if t00.cplx then
    Except.error "AssertionError: steering only implemented for real coefficients"
  else
    (List.range num_scales).foldlM (fun acc i => do
      let basisParts ← (List.range num_orientations).mapM (fun j =>
        match dictGet pyr_coeffs (i, j) with
        | some t => Except.ok t
        | none => Except.error "KeyError")
      let basis := catBasis basisParts
      let t0 ← match dictGet pyr_coeffs (i, 0) with
        | some t => Except.ok t
        | none => Except.error "KeyError"
      Except.ok (angles.enum.foldl (fun acc2 ja =>
        let p := steer basis ja.2 even_phase
        (dictAssign acc2.1 (i, num_orientations + ja.1) (reshape p.1 t0),
         dictAssign acc2.2 (i, ja.1) p.2)) acc))
      (([] : List ((Nat × Nat) × PT V)), ([] : List ((Nat × Nat) × PT V)))

/-- A real-valued coefficient dictionary for a pyramid with one scale
and two orientations, as `steer_coeffs` reads it. -/
def c9coeffs : List ((Nat × Nat) × PT Int) :=
  [((0, 0), ⟨false, (4, 4), [(2, 0)]⟩),
   ((0, 1), ⟨false, (4, 4), [(3, 0)]⟩)]

/-- C9: for a real pyramid with `num_orientations = 2` and a single
target angle, `steer_coeffs` does not key the re-steered coefficient by
the index into the angle list: the steered band lands at
`(0, num_orientations + 0) = (0, 2)` while its weight vector lands at
`(0, 0)`, for every steering function, reshape, basis concatenation,
angle and phase flag — so the re-steered keys neither index the angle
list nor agree with the weight keys, contrary to the claim and to the
method's own docstring. -/
theorem C9_steer_key_mismatch {A : Type} (steer : PT Int → A → Bool → PT Int × PT Int)
    (reshape : PT Int → PT Int → PT Int) (catBasis : List (PT Int) → PT Int)
    (a : A) (even_phase : Bool) :
    (steer_coeffs steer reshape catBasis 1 2 c9coeffs [a] even_phase).map
        (fun rw => (rw.1.map Prod.fst, rw.2.map Prod.fst))
      = Except.ok ([(0, 2)], [(0, 0)]) := rfl

end Plenoptic
